import Mathlib

/-!
# bencode-tools: the decoder of `libtypevalidator.c`

A shallow embedding of `find`, `decode_int`, `read_size_t`, `decode_str`,
`decode`, `ben_decode` and `ben_decode2`, followed by theorems about them.

Conventions of the embedding.

* The input buffer `data` is a list of bytes (natural numbers; ASCII codes are
  written as numerals: `'i'` = 105, `'e'` = 101, `':'` = 58, `'-'` = 45,
  `'+'` = 43, `'0'..'9'` = 48..57).  The length `len` is passed separately, as
  in the C code.
* `size_t` is a 64-bit unsigned word and `long long` a 64-bit signed word
  (LP64).  Every `size_t` addition and subtraction of the source goes through
  `add64` and `sub64`, which reduce modulo `2 ^ 64`.
* A C function `struct bencode *f(..., size_t *off)` becomes a function that
  returns the pair of its outcome and the final value of `*off`.
* A read of `data[i]` with `i` outside the list is undefined behaviour in C;
  the embedding reports it as the failure `Failure.oob`.
* `calloc` and `malloc` are external; their success is the parameter `Mem`.
-/

namespace Bencode

/-! ## Data model -/

/-- The value `(size_t) -1`. -/
def SIZE_MAX : Nat := 2 ^ 64 - 1

/-- Largest `long long`. -/
def LLONG_MAX : Int := 2 ^ 63 - 1

/-- Smallest `long long`. -/
def LLONG_MIN : Int := -(2 ^ 63)

/-- The decoded value, `struct bencode`: for `BENCODE_INT` the field `ll`, for
`BENCODE_STR` the fields `s.s` (the copied bytes) and `s.len`. -/
inductive Value where
  | int (ll : Int)
  | str (s : List Nat) (len : Nat)
  deriving DecidableEq, Repr

/-- The reason strings passed to `invalid` in the source. -/
inductive Reason where
  /-- The string "bad int slen". -/
  | bad_int_slen
  /-- The string "bad int string". -/
  | bad_int_string
  /-- The string "no string length". -/
  | no_string_length
  /-- The string "invalid string length". -/
  | invalid_string_length
  /-- The string "too long a string (data out of bounds)". -/
  | too_long_string
  /-- The string "unknown bencode type". -/
  | unknown_type
  deriving DecidableEq, Repr

/-- The ways a call ends without a value, one constructor for each place of
the source that returns `NULL` or aborts. -/
inductive Failure where
  /-- The call `overflow(off)`. -/
  | overflow (off : Nat)
  /-- The call `invalid(reason, off)`. -/
  | invalid (reason : Reason) (off : Nat)
  /-- The silent `return NULL` of `decode` after `l > 256`. -/
  | depth
  /-- The silent `return NULL` of `decode` after `*off == len`. -/
  | empty
  /-- The message "No memory for int". -/
  | nomem_int
  /-- The message "No memory for str structure". -/
  | nomem_str
  /-- The message "No memory for string". -/
  | nomem_string
  /-- An `assert` of the source does not hold: the process aborts. -/
  | assert_fail
  /-- A read of `data` outside the buffer. -/
  | oob
  deriving DecidableEq, Repr

/-- Outcome of a decoding call: the returned pointer. -/
inductive Outcome where
  | value (b : Value)
  | fail (f : Failure)
  deriving DecidableEq, Repr

/-- The failure kinds of the specification's taxonomy. -/
inductive Kind where
  | overflow
  | empty
  | malformed_number
  | length_out_of_bounds
  | unknown_type
  | depth_exceeded
  | out_of_memory
  deriving DecidableEq, Repr

/-- The kind a failure of the source is reported as.  An abort and an
out-of-bounds read have no kind. -/
def Failure.kind : Failure → Option Kind
  | .overflow _ => some .overflow
  | .invalid .bad_int_slen _ => some .malformed_number
  | .invalid .bad_int_string _ => some .malformed_number
  | .invalid .no_string_length _ => some .malformed_number
  | .invalid .invalid_string_length _ => some .malformed_number
  | .invalid .too_long_string _ => some .length_out_of_bounds
  | .invalid .unknown_type _ => some .unknown_type
  | .depth => some .depth_exceeded
  | .empty => some .empty
  | .nomem_int => some .out_of_memory
  | .nomem_str => some .out_of_memory
  | .nomem_string => some .out_of_memory
  | .assert_fail => none
  | .oob => none

/-- The allocator as the decoder sees it: whether `calloc(1, sizeof *b)`
returns a node and whether `malloc(n)` returns a buffer. -/
structure Mem where
  calloc_ok : Bool
  malloc_ok : Nat → Bool

/-- An allocator that never refuses. -/
def Mem.ok : Mem := ⟨true, fun _ => true⟩

/-! ## Machine arithmetic and the C library -/

/-- Addition of two `size_t` values. -/
def add64 (a b : Nat) : Nat := (a + b) % 2 ^ 64

/-- Subtraction of two `size_t` values. -/
def sub64 (a b : Nat) : Nat := (a % 2 ^ 64 + 2 ^ 64 - b % 2 ^ 64) % 2 ^ 64

/-- The function `isspace` in the C locale: space and `\t \n \v \f \r`. -/
def isspace (c : Nat) : Bool := c == 32 || (9 ≤ c && c ≤ 13)

/-- The function `isdigit`. -/
def isdigit (c : Nat) : Bool := 48 ≤ c && c ≤ 57

/-- The number a sequence of decimal digits denotes. -/
def digitsVal (ds : List Nat) : Nat := ds.foldl (fun a c => 10 * a + (c - 48)) 0

/-- What `strtoll(buf, &endptr, 10)` leaves behind: the returned number, the
index `endptr - buf`, and whether `errno` is `ERANGE`. -/
structure Strtoll where
  ll : Int
  endptr : Nat
  erange : Bool
  deriving DecidableEq, Repr

/-- The library function `strtoll(s, &endptr, 10)` of ISO C (7.22.1.4) on the
characters `s` of a buffer that holds a terminating NUL: skip white space, take
an optional sign, take the longest run of decimal digits.  Without a digit
nothing is converted, the result is 0 and `endptr` is the start of `s`.  A
number outside `long long` gives `LLONG_MAX` or `LLONG_MIN` and `ERANGE`. -/
def strtoll (s : List Nat) : Strtoll :=
  let ws := (s.takeWhile isspace).length
  let s1 := s.drop ws
  let neg : Bool := s1.head? == some 45
  let sg : Nat := if s1.head? == some 45 || s1.head? == some 43 then 1 else 0
  let ds := (s1.drop sg).takeWhile isdigit
  if ds.isEmpty then ⟨0, 0, false⟩
  else
    let v : Int := if neg then -(digitsVal ds : Int) else (digitsVal ds : Int)
    if v > LLONG_MAX then ⟨LLONG_MAX, ws + sg + ds.length, true⟩
    else if v < LLONG_MIN then ⟨LLONG_MIN, ws + sg + ds.length, true⟩
    else ⟨v, ws + sg + ds.length, false⟩

/-- The bytes `memcpy(dst, data + start, n)` reads: `data[start .. start+n)`,
or `none` when the range leaves the buffer. -/
def memcpy (data : List Nat) (start n : Nat) : Option (List Nat) :=
  if start + n ≤ data.length then some ((data.drop start).take n) else none

/-! ## The decoder -/

/-- The loop of `find`, with the number of remaining iterations as fuel. -/
def findLoop (data : List Nat) (len : Nat) (c : Nat) : Nat → Nat → Option Nat
  | 0, _ => some SIZE_MAX
  | fuel + 1, off =>
    if off < len then
      match data[off]? with
      | none => none
      | some b => if b = c then some off else findLoop data len c fuel (off + 1)
    else some SIZE_MAX

/-- The function `find`: the first position in `[off, len)` that holds `c`, or
`(size_t) -1`.  The result is `none` when the scan reads outside `data`. -/
def find (data : List Nat) (len off c : Nat) : Option Nat :=
  findLoop data len c (len - off) off

/-- The function `decode_int`. -/
def decode_int (m : Mem) (data : List Nat) (len off : Nat) : Outcome × Nat :=
  match find data len (add64 off 1) 101 with
  | none => (.fail .oob, off)
  | some pos =>
    if pos = SIZE_MAX then (.fail (.overflow off), off)
    else
      let slen := sub64 (sub64 pos off) 1
      if slen = 0 ∨ slen ≥ 21 then (.fail (.invalid .bad_int_slen off), off)
      else if ¬ slen < 21 then (.fail .assert_fail, off)
      else
        match memcpy data (off + 1) slen with
        | none => (.fail .oob, off)
        | some span =>
          let buf := span ++ [0]
          let r := strtoll buf
          if r.erange ∨ buf[r.endptr]? ≠ some 0 then
            (.fail (.invalid .bad_int_string off), off)
          else if ¬ m.calloc_ok then (.fail .nomem_int, off)
          else (.value (.int r.ll), pos)

/-- The function `read_size_t`. -/
def read_size_t (buf : List Nat) : Nat :=
  let r := strtoll buf
  if r.erange ∨ buf[r.endptr]? ≠ some 0 then SIZE_MAX
  else if r.ll < 0 then SIZE_MAX
  else
    let s : Nat := r.ll.toNat % 2 ^ 64
    let back : Int := if s < 2 ^ 63 then (s : Int) else (s : Int) - 2 ^ 64
    if r.ll ≠ back then SIZE_MAX else s

/-- The function `decode_str`. -/
def decode_str (m : Mem) (data : List Nat) (len off : Nat) : Outcome × Nat :=
  match find data len (add64 off 1) 58 with
  | none => (.fail .oob, off)
  | some pos =>
    if pos = SIZE_MAX then (.fail (.overflow off), off)
    else
      let slen := sub64 pos off
      if slen = 0 ∨ slen ≥ 21 then (.fail (.invalid .no_string_length off), off)
      else if ¬ slen < 21 then (.fail .assert_fail, off)
      else
        match memcpy data off slen with
        | none => (.fail .oob, off)
        | some hdr =>
          let datalen := read_size_t (hdr ++ [0])
          if datalen = SIZE_MAX then (.fail (.invalid .invalid_string_length off), off)
          else
            let newoff := add64 (add64 pos 1) datalen
            if newoff > len then (.fail (.invalid .too_long_string off), off)
            else if ¬ m.calloc_ok then (.fail .nomem_str, off)
            else if ¬ m.malloc_ok datalen then (.fail .nomem_string, off)
            else
              match memcpy data (pos + 1) datalen with
              | none => (.fail .oob, off)
              | some s => (.value (.str s datalen), newoff)

/-- The function `decode`; `l` is the `int` depth counter. -/
def decode (m : Mem) (data : List Nat) (len off : Nat) (l : Int) : Outcome × Nat :=
  let l := l + 1
  if l > 256 then (.fail .depth, off)
  else if off = len then (.fail .empty, off)
  else if ¬ off < len then (.fail .assert_fail, off)
  else
    match data[off]? with
    | none => (.fail .oob, off)
    | some b =>
      if 48 ≤ b ∧ b ≤ 57 then decode_str m data len off
      else if b = 105 then decode_int m data len off
      else (.fail (.invalid .unknown_type off), off)

/-- The function `ben_decode`: decode from offset 0; the final offset is a
local variable and is dropped. -/
def ben_decode (m : Mem) (data : List Nat) (len : Nat) : Outcome :=
  (decode m data len 0 0).1

/-- The function `ben_decode2`: decode from the caller's `*off`, which holds
the second component afterwards. -/
def ben_decode2 (m : Mem) (data : List Nat) (len off : Nat) : Outcome × Nat :=
  decode m data len off 0

/-! ## The conforming encoder

The repository has no encoder.  The definitions of this section follow the wire
format of the specification (`i<decimal-digits>e` and `<length>:<payload>`);
they are the other side of the round-trip property and are not used by the
decoder. -/

/-- Decimal digits of `n`, most significant first (fuel bounds the length). -/
def decimalFuel : Nat → Nat → List Nat
  | 0, _ => []
  | fuel + 1, n =>
    if n < 10 then [48 + n] else decimalFuel fuel (n / 10) ++ [48 + n % 10]

/-- The decimal numeral of `n` in ASCII, without leading zeros. -/
def decimal (n : Nat) : List Nat := decimalFuel (n + 1) n

/-- The decimal numeral of an integer: a `'-'` for a negative number,
then the numeral of its magnitude. -/
def decimalInt (v : Int) : List Nat :=
  if v < 0 then 45 :: decimal v.natAbs else decimal v.natAbs

/-- The encoding `i<decimal>e` of an integer. -/
def encode_int (v : Int) : List Nat := 105 :: (decimalInt v ++ [101])

/-- The encoding `<length>:<payload>` of a byte string. -/
def encode_str (s : List Nat) : List Nat := decimal s.length ++ 58 :: s

/-! ## Arithmetic lemmas -/

theorem add64_eq {a b : Nat} (h : a + b < 2 ^ 64) : add64 a b = a + b := by
  unfold add64; exact Nat.mod_eq_of_lt h

theorem sub64_eq {a b : Nat} (ha : a < 2 ^ 64) (h : b ≤ a) : sub64 a b = a - b := by
  unfold sub64
  have hb : b < 2 ^ 64 := by omega
  rw [Nat.mod_eq_of_lt ha, Nat.mod_eq_of_lt hb]
  omega

theorem add64_lt (a b : Nat) : add64 a b < 2 ^ 64 := by
  unfold add64; exact Nat.mod_lt _ (by norm_num)

/-! ## Lemmas on `find` -/

theorem findLoop_spec (data : List Nat) (len c : Nat) (hlen : len ≤ data.length) :
    ∀ fuel off, fuel = len - off →
      ∃ p, findLoop data len c fuel off = some p ∧
        ((p = SIZE_MAX ∧ ∀ j, off ≤ j → j < len → data[j]? ≠ some c) ∨
         (off ≤ p ∧ p < len ∧ data[p]? = some c ∧
            ∀ j, off ≤ j → j < p → data[j]? ≠ some c)) := by
  intro fuel
  induction fuel with
  | zero =>
    intro off h
    refine ⟨SIZE_MAX, rfl, Or.inl ⟨rfl, ?_⟩⟩
    intro j h1 h2; omega
  | succ n ih =>
    intro off h
    have hoff : off < len := by omega
    have hd : off < data.length := by omega
    simp only [findLoop, hoff, if_true, List.getElem?_eq_getElem hd]
    by_cases hc : data[off] = c
    · refine ⟨off, by simp [hc], Or.inr ⟨le_refl _, hoff, ?_, ?_⟩⟩
      · simp [List.getElem?_eq_getElem hd, hc]
      · intro j h1 h2; omega
    · obtain ⟨p, hp, hcase⟩ := ih (off + 1) (by omega)
      refine ⟨p, by simp [hc, hp], ?_⟩
      have hne : ∀ j, off ≤ j → j < off + 1 → data[j]? ≠ some c := by
        intro j h1 h2
        have : j = off := by omega
        subst this
        simp [List.getElem?_eq_getElem hd, hc]
      rcases hcase with ⟨h1, h2⟩ | ⟨h1, h2, h3, h4⟩
      · left
        refine ⟨h1, ?_⟩
        intro j hj1 hj2
        by_cases hj : j < off + 1
        · exact hne j hj1 hj
        · exact h2 j (by omega) hj2
      · right
        refine ⟨by omega, h2, h3, ?_⟩
        intro j hj1 hj2
        by_cases hj : j < off + 1
        · exact hne j hj1 hj
        · exact h4 j (by omega) hj2

/-- The function `find` on a buffer of `len` bytes never reads outside it, and
returns either `(size_t) -1` with no `c` in `[off, len)`, or the first
position of `c` in `[off, len)`. -/
theorem find_spec (data : List Nat) (len off c : Nat) (hlen : len ≤ data.length) :
    ∃ p, find data len off c = some p ∧
      ((p = SIZE_MAX ∧ ∀ j, off ≤ j → j < len → data[j]? ≠ some c) ∨
       (off ≤ p ∧ p < len ∧ data[p]? = some c ∧
          ∀ j, off ≤ j → j < p → data[j]? ≠ some c)) :=
  findLoop_spec data len c hlen (len - off) off rfl

/-- When `c` first occurs at `p` in `[off, len)`, `find` returns `p`. -/
theorem find_eq_pos (data : List Nat) (len off c p : Nat) (hlen : len ≤ data.length)
    (h1 : off ≤ p) (h2 : p < len) (h3 : data[p]? = some c)
    (h4 : ∀ j, off ≤ j → j < p → data[j]? ≠ some c) :
    find data len off c = some p := by
  obtain ⟨q, hq, hcase⟩ := find_spec data len off c hlen
  rw [hq]
  rcases hcase with ⟨_, g⟩ | ⟨g1, g2, g3, g4⟩
  · exact absurd h3 (g p h1 h2)
  · by_cases hlt : q < p
    · exact absurd g3 (h4 q g1 hlt)
    · by_cases hgt : p < q
      · exact absurd h3 (g4 p h1 hgt)
      · congr 1; omega

/-- When `c` does not occur in `[off, len)`, `find` returns `(size_t) -1`. -/
theorem find_eq_none (data : List Nat) (len off c : Nat) (hlen : len ≤ data.length)
    (h : ∀ j, off ≤ j → j < len → data[j]? ≠ some c) :
    find data len off c = some SIZE_MAX := by
  obtain ⟨q, hq, hcase⟩ := find_spec data len off c hlen
  rw [hq]
  rcases hcase with ⟨g, _⟩ | ⟨g1, g2, g3, _⟩
  · rw [g]
  · exact absurd g3 (h q g1 g2)

/-! ## Lemmas on `strtoll` -/

theorem isdigit_not_isspace {c : Nat} (h : isdigit c = true) : isspace c = false := by
  simp only [isdigit, isspace, Bool.and_eq_true, decide_eq_true_eq, Bool.or_eq_false_iff,
    beq_eq_false_iff_ne, Bool.and_eq_false_iff, decide_eq_false_iff_not] at *
  omega

theorem takeWhile_isdigit (ds rest : List Nat) (hd : ∀ c ∈ ds, isdigit c = true)
    (hr : ∀ c, rest.head? = some c → isdigit c = false) :
    (ds ++ rest).takeWhile isdigit = ds := by
  rw [List.takeWhile_append_of_pos hd]
  cases rest with
  | nil => simp
  | cons r rs =>
    have := hr r rfl
    simp [List.takeWhile_cons, this]

theorem strtoll_digits (ds rest : List Nat) (hne : ds ≠ [])
    (hd : ∀ c ∈ ds, isdigit c = true)
    (hr : ∀ c, rest.head? = some c → isdigit c = false) :
    strtoll (ds ++ rest) =
      if (digitsVal ds : Int) > LLONG_MAX then ⟨LLONG_MAX, ds.length, true⟩
      else ⟨digitsVal ds, ds.length, false⟩ := by
  cases ds with
  | nil => exact absurd rfl hne
  | cons d ds' =>
    have hdd : isdigit d = true := hd d (List.mem_cons_self _ _)
    have hsp : isspace d = false := isdigit_not_isspace hdd
    have h45 : d ≠ 45 := by
      intro h; subst h; simp [isdigit] at hdd
    have h43 : d ≠ 43 := by
      intro h; subst h; simp [isdigit] at hdd
    have htw := takeWhile_isdigit (d :: ds') rest hd hr
    have hmin : ¬ ((digitsVal (d :: ds') : Int) < LLONG_MIN) := by
      have : (0 : Int) ≤ (digitsVal (d :: ds') : Int) := Int.natCast_nonneg _
      unfold LLONG_MIN; omega
    have hws : List.takeWhile isspace (d :: (ds' ++ rest)) = [] := by
      simp [List.takeWhile_cons, hsp]
    have hb45 : (d == 45) = false := by simpa using h45
    have hb43 : (d == 43) = false := by simpa using h43
    have hemp : (d :: ds').isEmpty = false := rfl
    unfold strtoll
    simp only [List.cons_append] at htw ⊢
    simp only [hws, List.length_nil, List.drop_zero, List.head?_cons, Option.some_beq_some,
      hb45, hb43, Bool.or_self, Bool.false_eq_true, if_false, htw, hemp, Nat.add_zero,
      Nat.zero_add, hmin]

theorem strtoll_minus_digits (ds rest : List Nat) (hne : ds ≠ [])
    (hd : ∀ c ∈ ds, isdigit c = true)
    (hr : ∀ c, rest.head? = some c → isdigit c = false) :
    strtoll (45 :: (ds ++ rest)) =
      if -(digitsVal ds : Int) < LLONG_MIN then ⟨LLONG_MIN, 1 + ds.length, true⟩
      else ⟨-(digitsVal ds : Int), 1 + ds.length, false⟩ := by
  have htw := takeWhile_isdigit ds rest hd hr
  have hmax : ¬ (-(digitsVal ds : Int) > LLONG_MAX) := by
    have : (0 : Int) ≤ (digitsVal ds : Int) := Int.natCast_nonneg _
    unfold LLONG_MAX; omega
  have hemp : ds.isEmpty = false := by
    cases ds with
    | nil => exact absurd rfl hne
    | cons _ _ => rfl
  unfold strtoll
  have hsp : isspace 45 = false := by decide
  simp only [List.takeWhile_cons, hsp, List.length_nil, List.drop_zero, List.head?_cons,
    Bool.false_eq_true, if_false, beq_self_eq_true, Bool.true_or, if_true, List.drop_succ_cons,
    htw, hemp, Nat.zero_add, hmax]

theorem strtoll_plus_digits (ds rest : List Nat) (hne : ds ≠ [])
    (hd : ∀ c ∈ ds, isdigit c = true)
    (hr : ∀ c, rest.head? = some c → isdigit c = false) :
    strtoll (43 :: (ds ++ rest)) =
      if (digitsVal ds : Int) > LLONG_MAX then ⟨LLONG_MAX, 1 + ds.length, true⟩
      else ⟨digitsVal ds, 1 + ds.length, false⟩ := by
  have htw := takeWhile_isdigit ds rest hd hr
  have hmin : ¬ ((digitsVal ds : Int) < LLONG_MIN) := by
    have : (0 : Int) ≤ (digitsVal ds : Int) := Int.natCast_nonneg _
    unfold LLONG_MIN; omega
  have hemp : ds.isEmpty = false := by
    cases ds with
    | nil => exact absurd rfl hne
    | cons _ _ => rfl
  unfold strtoll
  have hsp : isspace 43 = false := by decide
  have h4345 : ((43 : Nat) == 45) = false := by decide
  simp only [List.takeWhile_cons, hsp, List.length_nil, List.drop_zero, List.head?_cons,
    Bool.false_eq_true, if_false, beq_self_eq_true, Bool.or_true, if_true, List.drop_succ_cons,
    htw, hemp, Nat.zero_add, Option.some_beq_some, h4345]
  split
  · rfl
  · simp [hmin]

theorem strtoll_range (s : List Nat) :
    LLONG_MIN ≤ (strtoll s).ll ∧ (strtoll s).ll ≤ LLONG_MAX := by
  unfold strtoll
  dsimp only
  split_ifs <;>
    first
    | (constructor <;> simp [LLONG_MIN, LLONG_MAX] <;> done)
    | (simp only [LLONG_MIN, LLONG_MAX] at *; omega)

/-- A length that `read_size_t` accepts is below `2 ^ 63`. -/
theorem read_size_t_lt (buf : List Nat) (h : read_size_t buf ≠ SIZE_MAX) :
    read_size_t buf < 2 ^ 63 := by
  have hr := strtoll_range buf
  unfold read_size_t at h ⊢
  dsimp only at h ⊢
  split_ifs at h ⊢ <;>
    first
    | exact absurd rfl h
    | (unfold LLONG_MAX at hr; omega)

/-! ## The readers at a located terminator -/

/-- The reader `decode_int` when the first `'e'` after `off` is at `p`. -/
theorem decode_int_at (m : Mem) (data : List Nat) (off p : Nat)
    (hlen : data.length < 2 ^ 64) (h1 : off < p) (h2 : p < data.length)
    (h3 : data[p]? = some 101)
    (h4 : ∀ j, off + 1 ≤ j → j < p → data[j]? ≠ some 101) :
    decode_int m data data.length off =
      if p - off - 1 = 0 ∨ p - off - 1 ≥ 21 then (.fail (.invalid .bad_int_slen off), off)
      else if (strtoll ((data.drop (off + 1)).take (p - off - 1) ++ [0])).erange = true ∨
          ((data.drop (off + 1)).take (p - off - 1) ++ [0])[(strtoll
            ((data.drop (off + 1)).take (p - off - 1) ++ [0])).endptr]? ≠ some 0 then
        (.fail (.invalid .bad_int_string off), off)
      else if ¬ m.calloc_ok = true then (.fail .nomem_int, off)
      else (.value (.int (strtoll ((data.drop (off + 1)).take (p - off - 1) ++ [0])).ll), p) := by
  have ha : add64 off 1 = off + 1 := add64_eq (by omega)
  have hf : find data data.length (off + 1) 101 = some p :=
    find_eq_pos data data.length (off + 1) 101 p (le_refl _) h1 h2 h3 h4
  have hp : p ≠ SIZE_MAX := by unfold SIZE_MAX; omega
  have hs1 : sub64 p off = p - off := sub64_eq (by omega) (by omega)
  have hs2 : sub64 (p - off) 1 = p - off - 1 := sub64_eq (by omega) (by omega)
  have hm : memcpy data (off + 1) (p - off - 1) =
      some ((data.drop (off + 1)).take (p - off - 1)) := by
    unfold memcpy
    rw [if_pos (by omega)]
  unfold decode_int
  simp only [ha, hf, hp, if_false, hs1, hs2]
  split
  · rfl
  · rename_i hsl
    have : p - off - 1 < 21 := by omega
    simp only [this, not_true_eq_false, if_false, hm]

/-- The reader `decode_int` when no `'e'` follows `off`. -/
theorem decode_int_unterminated (m : Mem) (data : List Nat) (off : Nat)
    (h1 : off + 1 < 2 ^ 64)
    (h4 : ∀ j, off + 1 ≤ j → j < data.length → data[j]? ≠ some 101) :
    decode_int m data data.length off = (.fail (.overflow off), off) := by
  have ha : add64 off 1 = off + 1 := add64_eq (by omega)
  have hf : find data data.length (off + 1) 101 = some SIZE_MAX :=
    find_eq_none data data.length (off + 1) 101 (le_refl _) h4
  unfold decode_int
  rw [ha, hf]
  exact if_pos rfl

/-- The reader `decode_str` when the first `':'` after `off` is at `p`. -/
theorem decode_str_at (m : Mem) (data : List Nat) (off p : Nat)
    (hlen : data.length < 2 ^ 64) (h1 : off < p) (h2 : p < data.length)
    (h3 : data[p]? = some 58)
    (h4 : ∀ j, off + 1 ≤ j → j < p → data[j]? ≠ some 58) :
    decode_str m data data.length off =
      if p - off ≥ 21 then (.fail (.invalid .no_string_length off), off)
      else if read_size_t ((data.drop off).take (p - off) ++ [0]) = SIZE_MAX then
        (.fail (.invalid .invalid_string_length off), off)
      else if add64 (p + 1) (read_size_t ((data.drop off).take (p - off) ++ [0]))
          > data.length then
        (.fail (.invalid .too_long_string off), off)
      else if ¬ m.calloc_ok = true then (.fail .nomem_str, off)
      else if ¬ m.malloc_ok (read_size_t ((data.drop off).take (p - off) ++ [0])) = true then
        (.fail .nomem_string, off)
      else
        match memcpy data (p + 1) (read_size_t ((data.drop off).take (p - off) ++ [0])) with
        | none => (.fail .oob, off)
        | some s =>
          (.value (.str s (read_size_t ((data.drop off).take (p - off) ++ [0]))),
            add64 (p + 1) (read_size_t ((data.drop off).take (p - off) ++ [0]))) := by
  have ha : add64 off 1 = off + 1 := add64_eq (by omega)
  have ha2 : add64 p 1 = p + 1 := add64_eq (by omega)
  have hf : find data data.length (off + 1) 58 = some p :=
    find_eq_pos data data.length (off + 1) 58 p (le_refl _) h1 h2 h3 h4
  have hp : p ≠ SIZE_MAX := by unfold SIZE_MAX; omega
  have hs1 : sub64 p off = p - off := sub64_eq (by omega) (by omega)
  have hm : memcpy data off (p - off) = some ((data.drop off).take (p - off)) := by
    unfold memcpy
    rw [if_pos (by omega)]
  have h0 : p - off ≠ 0 := by omega
  unfold decode_str
  simp only [ha, ha2, hf, hp, if_false, hs1, h0, false_or]
  split
  · rfl
  · rename_i hsl
    have : p - off < 21 := by omega
    simp only [this, not_true_eq_false, if_false, hm]

/-- The reader `decode_str` when no `':'` follows `off`. -/
theorem decode_str_unterminated (m : Mem) (data : List Nat) (off : Nat)
    (h1 : off + 1 < 2 ^ 64)
    (h4 : ∀ j, off + 1 ≤ j → j < data.length → data[j]? ≠ some 58) :
    decode_str m data data.length off = (.fail (.overflow off), off) := by
  have ha : add64 off 1 = off + 1 := add64_eq (by omega)
  have hf : find data data.length (off + 1) 58 = some SIZE_MAX :=
    find_eq_none data data.length (off + 1) 58 (le_refl _) h4
  unfold decode_str
  rw [ha, hf]
  exact if_pos rfl

/-! ## Dispatch -/

/-- On the byte `'i'` the dispatcher runs `decode_int`. -/
theorem decode_i (m : Mem) (data : List Nat) (len off : Nat) (h : off < len)
    (hb : data[off]? = some 105) :
    decode m data len off 0 = decode_int m data len off := by
  unfold decode
  have h1 : ¬ ((0 : Int) + 1 > 256) := by decide
  have h2 : off ≠ len := by omega
  simp only [h1, h2, h, if_false, not_true_eq_false, hb]
  simp

/-- On a digit the dispatcher runs `decode_str`. -/
theorem decode_digit (m : Mem) (data : List Nat) (len off b : Nat) (h : off < len)
    (hb : data[off]? = some b) (hd : isdigit b = true) :
    decode m data len off 0 = decode_str m data len off := by
  unfold decode
  have h1 : ¬ ((0 : Int) + 1 > 256) := by decide
  have h2 : off ≠ len := by omega
  have h3 : 48 ≤ b ∧ b ≤ 57 := by
    simpa [isdigit] using hd
  simp only [h1, h2, h, if_false, not_true_eq_false, hb, h3, and_self, if_true]

/-- On any other byte the dispatcher reports an unknown type. -/
theorem decode_other (m : Mem) (data : List Nat) (len off b : Nat) (h : off < len)
    (hb : data[off]? = some b) (hd : isdigit b = false) (hi : b ≠ 105) :
    decode m data len off 0 = (.fail (.invalid .unknown_type off), off) := by
  unfold decode
  have h1 : ¬ ((0 : Int) + 1 > 256) := by decide
  have h2 : off ≠ len := by omega
  have h3 : ¬ (48 ≤ b ∧ b ≤ 57) := by
    simpa [isdigit] using hd
  simp only [h1, h2, h, if_false, not_true_eq_false, hb, h3, hi]

/-! ## Numerals -/

theorem digitsVal_append_single (l : List Nat) (d : Nat) :
    digitsVal (l ++ [d]) = 10 * digitsVal l + (d - 48) := by
  unfold digitsVal
  rw [List.foldl_append]
  rfl

theorem decimalFuel_isdigit : ∀ fuel n, ∀ c ∈ decimalFuel fuel n, isdigit c = true := by
  intro fuel
  induction fuel with
  | zero => intro n c hc; simp [decimalFuel] at hc
  | succ k ih =>
    intro n c hc
    unfold decimalFuel at hc
    split at hc
    · rename_i hn
      simp only [List.mem_singleton] at hc
      subst hc
      simp only [isdigit, Bool.and_eq_true, decide_eq_true_eq]
      omega
    · rw [List.mem_append] at hc
      rcases hc with hc | hc
      · exact ih _ c hc
      · simp only [List.mem_singleton] at hc
        subst hc
        simp only [isdigit, Bool.and_eq_true, decide_eq_true_eq]
        omega

theorem decimalFuel_ne_nil (fuel n : Nat) : decimalFuel (fuel + 1) n ≠ [] := by
  unfold decimalFuel
  split <;> simp

theorem digitsVal_decimalFuel : ∀ fuel n, n < fuel → digitsVal (decimalFuel fuel n) = n := by
  intro fuel
  induction fuel with
  | zero => intro n h; omega
  | succ k ih =>
    intro n h
    unfold decimalFuel
    split
    · rename_i hn
      simp [digitsVal]
    · rename_i hn
      rw [digitsVal_append_single, ih (n / 10) (by omega)]
      omega

theorem decimalFuel_length : ∀ fuel n k, n < fuel → 1 ≤ k → n < 10 ^ k →
    (decimalFuel fuel n).length ≤ k := by
  intro fuel
  induction fuel with
  | zero => intro n k h; omega
  | succ f ih =>
    intro n k h hk hn
    unfold decimalFuel
    split
    · simpa using hk
    · rename_i h10
      obtain ⟨k', rfl⟩ : ∃ k', k = k' + 1 := ⟨k - 1, by omega⟩
      have hk' : 1 ≤ k' := by
        rcases Nat.eq_zero_or_pos k' with h0 | h0
        · subst h0; simp at hn; omega
        · exact h0
      have hn' : n / 10 < 10 ^ k' := by
        rw [Nat.div_lt_iff_lt_mul (by norm_num)]
        rw [pow_succ] at hn
        exact hn
      have := ih (n / 10) k' (by omega) hk' hn'
      simp only [List.length_append, List.length_singleton]
      omega

theorem decimal_isdigit (n : Nat) : ∀ c ∈ decimal n, isdigit c = true :=
  decimalFuel_isdigit (n + 1) n

theorem decimal_ne_nil (n : Nat) : decimal n ≠ [] := decimalFuel_ne_nil n n

theorem digitsVal_decimal (n : Nat) : digitsVal (decimal n) = n :=
  digitsVal_decimalFuel (n + 1) n (by omega)

theorem decimal_length (n k : Nat) (hk : 1 ≤ k) (hn : n < 10 ^ k) :
    (decimal n).length ≤ k :=
  decimalFuel_length (n + 1) n k (by omega) hk hn

/-- On a numeral without sign that fits, `read_size_t` returns its value. -/
theorem read_size_t_digits (ds : List Nat) (hne : ds ≠ [])
    (hd : ∀ c ∈ ds, isdigit c = true) (hv : digitsVal ds < 2 ^ 63) :
    read_size_t (ds ++ [0]) = digitsVal ds := by
  have hr : ∀ c, ([0] : List Nat).head? = some c → isdigit c = false := by
    intro c hc
    simp only [List.head?_cons, Option.some.injEq] at hc
    subst hc; rfl
  have hs := strtoll_digits ds [0] hne hd hr
  have hmax : ¬ ((digitsVal ds : Int) > LLONG_MAX) := by
    unfold LLONG_MAX; omega
  rw [if_neg hmax] at hs
  unfold read_size_t
  simp only [hs]
  have hend : (ds ++ [0])[ds.length]? = some 0 := by simp
  have hnn : ¬ ((digitsVal ds : Int) < 0) := by omega
  have hmod : digitsVal ds % 2 ^ 64 = digitsVal ds := Nat.mod_eq_of_lt (by omega)
  simp only [hend, Int.toNat_ofNat, hmod, hv, if_true, Bool.false_eq_true, ne_eq,
    not_true_eq_false, or_self, if_false, hnn]

/-! ## Tokens inside a buffer -/

theorem getElem?_ne_of_forall_mem {l : List Nat} {c : Nat} (h : ∀ x ∈ l, x ≠ c) (k : Nat) :
    l[k]? ≠ some c := by
  intro hk
  exact h c (List.getElem?_mem hk) rfl

/-- The layout of a buffer `pre ++ a :: (mid ++ b :: post)`. -/
theorem token_layout (pre mid post : List Nat) (a b : Nat) :
    (pre ++ a :: (mid ++ b :: post))[pre.length]? = some a ∧
    (pre ++ a :: (mid ++ b :: post))[pre.length + 1 + mid.length]? = some b ∧
    (∀ j, pre.length + 1 ≤ j → j < pre.length + 1 + mid.length →
      (pre ++ a :: (mid ++ b :: post))[j]? = mid[j - (pre.length + 1)]?) ∧
    (pre ++ a :: (mid ++ b :: post)).drop (pre.length + 1) = mid ++ b :: post ∧
    (pre ++ a :: (mid ++ b :: post)).drop pre.length = a :: (mid ++ b :: post) ∧
    (pre ++ a :: (mid ++ b :: post)).length = pre.length + 1 + mid.length + 1 + post.length := by
  have hdata : pre ++ a :: (mid ++ b :: post) = (pre ++ [a]) ++ (mid ++ b :: post) := by simp
  have hl : (pre ++ [a]).length = pre.length + 1 := by simp
  refine ⟨?_, ?_, ?_, ?_, ?_, ?_⟩
  · rw [List.getElem?_append_right (le_refl _)]
    simp
  · rw [hdata, List.getElem?_append_right (by rw [hl]; omega), hl,
      List.getElem?_append_right (by omega)]
    have : pre.length + 1 + mid.length - (pre.length + 1) - mid.length = 0 := by omega
    rw [this]
    simp
  · intro j h1 h2
    rw [hdata, List.getElem?_append_right (by rw [hl]; omega), hl,
      List.getElem?_append_left (by omega)]
  · rw [hdata, List.drop_left' hl]
  · exact List.drop_left pre _
  · simp only [List.length_append, List.length_cons]
    omega

/-- The result of `ben_decode2` on a buffer that holds, at the offset, an `'i'`, a
span without `'e'`, and an `'e'`: it is decided by `strtoll` on the span. -/
theorem ben_decode2_int_token (m : Mem) (pre span post : List Nat)
    (hlen : (pre ++ 105 :: (span ++ 101 :: post)).length < 2 ^ 64)
    (hs : ∀ c ∈ span, c ≠ 101) :
    ben_decode2 m (pre ++ 105 :: (span ++ 101 :: post))
        (pre ++ 105 :: (span ++ 101 :: post)).length pre.length =
      if span.length = 0 ∨ span.length ≥ 21 then
        (.fail (.invalid .bad_int_slen pre.length), pre.length)
      else if (strtoll (span ++ [0])).erange = true ∨
          (span ++ [0])[(strtoll (span ++ [0])).endptr]? ≠ some 0 then
        (.fail (.invalid .bad_int_string pre.length), pre.length)
      else if ¬ m.calloc_ok = true then (.fail .nomem_int, pre.length)
      else (.value (.int (strtoll (span ++ [0])).ll), pre.length + 1 + span.length) := by
  obtain ⟨g1, g2, g3, g4, _, g6⟩ := token_layout pre span post 105 101
  have hoff : pre.length < (pre ++ 105 :: (span ++ 101 :: post)).length := by omega
  have hno : ∀ j, pre.length + 1 ≤ j → j < pre.length + 1 + span.length →
      (pre ++ 105 :: (span ++ 101 :: post))[j]? ≠ some 101 := by
    intro j h1 h2
    rw [g3 j h1 h2]
    exact getElem?_ne_of_forall_mem hs _
  have hsub : pre.length + 1 + span.length - pre.length - 1 = span.length := by omega
  unfold ben_decode2
  rw [decode_i m _ _ _ hoff g1,
    decode_int_at m _ pre.length (pre.length + 1 + span.length) hlen (by omega) (by omega) g2 hno,
    hsub, g4, List.take_left]

/-- The result of `ben_decode2` on a buffer that holds, at the offset, a header
that starts with a digit and has no `':'`, and then a `':'`: it is decided by
`read_size_t` on the header. -/
theorem ben_decode2_str_token (m : Mem) (pre hdr rest : List Nat) (d : Nat)
    (hlen : (pre ++ d :: (hdr ++ 58 :: rest)).length < 2 ^ 64)
    (hd : isdigit d = true) (hs : ∀ c ∈ hdr, c ≠ 58) :
    ben_decode2 m (pre ++ d :: (hdr ++ 58 :: rest))
        (pre ++ d :: (hdr ++ 58 :: rest)).length pre.length =
      if hdr.length + 1 ≥ 21 then (.fail (.invalid .no_string_length pre.length), pre.length)
      else if read_size_t (d :: hdr ++ [0]) = SIZE_MAX then
        (.fail (.invalid .invalid_string_length pre.length), pre.length)
      else if add64 (pre.length + 1 + hdr.length + 1) (read_size_t (d :: hdr ++ [0]))
          > (pre ++ d :: (hdr ++ 58 :: rest)).length then
        (.fail (.invalid .too_long_string pre.length), pre.length)
      else if ¬ m.calloc_ok = true then (.fail .nomem_str, pre.length)
      else if ¬ m.malloc_ok (read_size_t (d :: hdr ++ [0])) = true then
        (.fail .nomem_string, pre.length)
      else
        match memcpy (pre ++ d :: (hdr ++ 58 :: rest)) (pre.length + 1 + hdr.length + 1)
          (read_size_t (d :: hdr ++ [0])) with
        | none => (.fail .oob, pre.length)
        | some s =>
          (.value (.str s (read_size_t (d :: hdr ++ [0]))),
            add64 (pre.length + 1 + hdr.length + 1) (read_size_t (d :: hdr ++ [0]))) := by
  obtain ⟨g1, g2, g3, _, g5, g6⟩ := token_layout pre hdr rest d 58
  have hoff : pre.length < (pre ++ d :: (hdr ++ 58 :: rest)).length := by omega
  have hno : ∀ j, pre.length + 1 ≤ j → j < pre.length + 1 + hdr.length →
      (pre ++ d :: (hdr ++ 58 :: rest))[j]? ≠ some 58 := by
    intro j h1 h2
    rw [g3 j h1 h2]
    exact getElem?_ne_of_forall_mem hs _
  have hsub : pre.length + 1 + hdr.length - pre.length = hdr.length + 1 := by omega
  have htake : List.take (hdr.length + 1) (d :: (hdr ++ 58 :: rest)) = d :: hdr := by
    rw [List.take_succ_cons, List.take_left]
  unfold ben_decode2
  rw [decode_digit m _ _ _ d hoff g1 hd,
    decode_str_at m _ pre.length (pre.length + 1 + hdr.length) hlen (by omega) (by omega) g2 hno,
    hsub, g5, htake]

/-! ## What a successful call has read -/

/-- Inversion of a successful `decode_int`: the first `'e'` after `off` is at
some `p`, the value is what `strtoll` makes of the span, and `*off` is `p`. -/
theorem decode_int_value (m : Mem) (data : List Nat) (off off1 : Nat) (v : Value)
    (hlen : data.length < 2 ^ 64) (hoff : off < data.length)
    (h : decode_int m data data.length off = (.value v, off1)) :
    ∃ p, off < p ∧ p < data.length ∧ data[p]? = some 101 ∧
      (∀ j, off + 1 ≤ j → j < p → data[j]? ≠ some 101) ∧
      1 ≤ p - off - 1 ∧ p - off - 1 < 21 ∧
      (strtoll ((data.drop (off + 1)).take (p - off - 1) ++ [0])).erange = false ∧
      v = .int (strtoll ((data.drop (off + 1)).take (p - off - 1) ++ [0])).ll ∧
      off1 = p := by
  obtain ⟨p, hp, hcase⟩ := find_spec data data.length (off + 1) 101 (le_refl _)
  rcases hcase with ⟨_, hnone⟩ | ⟨g1, g2, g3, g4⟩
  · rw [decode_int_unterminated m data off (by omega) hnone] at h
    simp at h
  · rw [decode_int_at m data off p hlen (by omega) g2 g3 g4] at h
    have key : ∀ x : Outcome × Nat, x = (.value v, off1) →
        (x = (if p - off - 1 = 0 ∨ p - off - 1 ≥ 21 then
            (.fail (.invalid .bad_int_slen off), off)
          else if (strtoll ((data.drop (off + 1)).take (p - off - 1) ++ [0])).erange = true ∨
              ((data.drop (off + 1)).take (p - off - 1) ++ [0])[(strtoll
                ((data.drop (off + 1)).take (p - off - 1) ++ [0])).endptr]? ≠ some 0 then
            (.fail (.invalid .bad_int_string off), off)
          else if ¬ m.calloc_ok = true then (.fail .nomem_int, off)
          else (.value (.int (strtoll ((data.drop (off + 1)).take (p - off - 1) ++ [0])).ll),
            p))) →
        ¬ (p - off - 1 = 0 ∨ p - off - 1 ≥ 21) ∧
        (strtoll ((data.drop (off + 1)).take (p - off - 1) ++ [0])).erange = false ∧
        v = .int (strtoll ((data.drop (off + 1)).take (p - off - 1) ++ [0])).ll ∧
        off1 = p := by
      intro x hx hdef
      by_cases c1 : p - off - 1 = 0 ∨ p - off - 1 ≥ 21
      · rw [if_pos c1] at hdef; rw [hdef] at hx; simp at hx
      · rw [if_neg c1] at hdef
        by_cases c2 : (strtoll ((data.drop (off + 1)).take (p - off - 1) ++ [0])).erange = true ∨
              ((data.drop (off + 1)).take (p - off - 1) ++ [0])[(strtoll
                ((data.drop (off + 1)).take (p - off - 1) ++ [0])).endptr]? ≠ some 0
        · rw [if_pos c2] at hdef; rw [hdef] at hx; simp at hx
        · rw [if_neg c2] at hdef
          by_cases c3 : ¬ m.calloc_ok = true
          · rw [if_pos c3] at hdef; rw [hdef] at hx; simp at hx
          · rw [if_neg c3] at hdef
            rw [hdef] at hx
            simp only [Prod.mk.injEq, Outcome.value.injEq] at hx
            refine ⟨c1, ?_, hx.1.symm, hx.2.symm⟩
            cases hb : (strtoll ((data.drop (off + 1)).take (p - off - 1) ++ [0])).erange
            · rfl
            · exact absurd (Or.inl hb) c2
    obtain ⟨k1, k2, k3, k4⟩ := key _ h rfl
    exact ⟨p, by omega, g2, g3, g4, by omega, by omega, k2, k3, k4⟩

/-- Inversion of a successful `decode_str` on a buffer below `2 ^ 63` bytes: the
first `':'` after `off` is at some `p`, the header parses to `n`, the payload
`data[p+1 .. p+1+n)` lies inside the buffer, and `*off` is `p + 1 + n`. -/
theorem decode_str_value (m : Mem) (data : List Nat) (off off1 : Nat) (v : Value)
    (hlen : data.length < 2 ^ 63) (hoff : off < data.length)
    (h : decode_str m data data.length off = (.value v, off1)) :
    ∃ p n, off < p ∧ p < data.length ∧ data[p]? = some 58 ∧
      (∀ j, off + 1 ≤ j → j < p → data[j]? ≠ some 58) ∧
      p - off < 21 ∧
      n = read_size_t ((data.drop off).take (p - off) ++ [0]) ∧
      n ≠ SIZE_MAX ∧ p + 1 + n ≤ data.length ∧
      v = .str ((data.drop (p + 1)).take n) n ∧
      off1 = p + 1 + n := by
  have hlen64 : data.length < 2 ^ 64 := by omega
  obtain ⟨p, hp, hcase⟩ := find_spec data data.length (off + 1) 58 (le_refl _)
  rcases hcase with ⟨_, hnone⟩ | ⟨g1, g2, g3, g4⟩
  · rw [decode_str_unterminated m data off (by omega) hnone] at h
    simp at h
  · rw [decode_str_at m data off p hlen64 (by omega) g2 g3 g4] at h
    by_cases c1 : p - off ≥ 21
    · rw [if_pos c1] at h; simp at h
    · rw [if_neg c1] at h
      by_cases c2 : read_size_t ((data.drop off).take (p - off) ++ [0]) = SIZE_MAX
      · rw [if_pos c2] at h; simp at h
      · rw [if_neg c2] at h
        have hn := read_size_t_lt _ c2
        have hadd : add64 (p + 1) (read_size_t ((data.drop off).take (p - off) ++ [0])) =
            p + 1 + read_size_t ((data.drop off).take (p - off) ++ [0]) :=
          add64_eq (by omega)
        rw [hadd] at h
        by_cases c3 : p + 1 + read_size_t ((data.drop off).take (p - off) ++ [0]) > data.length
        · rw [if_pos c3] at h; simp at h
        · rw [if_neg c3] at h
          by_cases c4 : ¬ m.calloc_ok = true
          · rw [if_pos c4] at h; simp at h
          · rw [if_neg c4] at h
            by_cases c5 : ¬ m.malloc_ok
                (read_size_t ((data.drop off).take (p - off) ++ [0])) = true
            · rw [if_pos c5] at h; simp at h
            · rw [if_neg c5] at h
              have hm : memcpy data (p + 1)
                  (read_size_t ((data.drop off).take (p - off) ++ [0])) =
                  some ((data.drop (p + 1)).take
                    (read_size_t ((data.drop off).take (p - off) ++ [0]))) := by
                unfold memcpy
                rw [if_pos (by omega)]
              rw [hm] at h
              simp only [Prod.mk.injEq, Outcome.value.injEq] at h
              exact ⟨p, _, by omega, g2, g3, g4, by omega, rfl, c2, by omega,
                h.1.symm, h.2.symm⟩

/-- Inversion of a successful `ben_decode2`: the byte at the offset is `'i'` and
`decode_int` gave the result, or it is a digit and `decode_str` gave it. -/
theorem ben_decode2_value (m : Mem) (data : List Nat) (off off1 : Nat) (v : Value)
    (hoff : off ≤ data.length)
    (h : ben_decode2 m data data.length off = (.value v, off1)) :
    off < data.length ∧
    ((data[off]? = some 105 ∧ decode_int m data data.length off = (.value v, off1)) ∨
     (∃ b, data[off]? = some b ∧ isdigit b = true ∧
        decode_str m data data.length off = (.value v, off1))) := by
  unfold ben_decode2 at h
  by_cases hlt : off < data.length
  · refine ⟨hlt, ?_⟩
    have hb : data[off]? = some data[off] := List.getElem?_eq_getElem hlt
    by_cases hd : isdigit data[off] = true
    · right
      rw [decode_digit m data _ off _ hlt hb hd] at h
      exact ⟨_, hb, hd, h⟩
    · by_cases hi : data[off] = 105
      · left
        rw [hi] at hb
        rw [decode_i m data _ off hlt hb] at h
        exact ⟨hb, h⟩
      · have hd2 : isdigit data[off] = false := by simpa using hd
        rw [decode_other m data _ off _ hlt hb hd2 hi] at h
        simp at h
  · have he : off = data.length := by omega
    unfold decode at h
    simp [he] at h

/-! ## Well-formed tokens -/

/-- The reader's result on a header of decimal digits: when `data[start .. p)`
are digits denoting `n`, `data[p]` is `':'` and the payload fits, the call gives
the payload `data[p+1 .. p+1+n)` and the offset `p + 1 + n`. -/
theorem ben_decode2_str_digits (m : Mem) (data : List Nat) (start p : Nat)
    (hlen : data.length < 2 ^ 63) (hsp : start < p) (hp21 : p - start < 21)
    (hdig : ∀ j, start ≤ j → j < p → ∃ b, data[j]? = some b ∧ isdigit b = true)
    (hcolon : data[p]? = some 58)
    (hfit : p + 1 + digitsVal ((data.drop start).take (p - start)) ≤ data.length)
    (hc : m.calloc_ok = true)
    (hmal : m.malloc_ok (digitsVal ((data.drop start).take (p - start))) = true) :
    ben_decode2 m data data.length start =
      (.value (.str ((data.drop (p + 1)).take (digitsVal ((data.drop start).take (p - start))))
          (digitsVal ((data.drop start).take (p - start)))),
        p + 1 + digitsVal ((data.drop start).take (p - start))) := by
  have hplt : p < data.length := by
    by_contra hge
    rw [List.getElem?_eq_none (by omega)] at hcolon
    exact absurd hcolon (by simp)
  obtain ⟨b, hb, hbd⟩ := hdig start (le_refl _) hsp
  have hno : ∀ j, start + 1 ≤ j → j < p → data[j]? ≠ some 58 := by
    intro j h1 h2 h58
    obtain ⟨c, hc1, hc2⟩ := hdig j (by omega) h2
    rw [hc1] at h58
    simp only [Option.some.injEq] at h58
    subst h58
    simp [isdigit] at hc2
  have hhl : ((data.drop start).take (p - start)).length = p - start := by
    rw [List.length_take, List.length_drop]
    omega
  have hhne : (data.drop start).take (p - start) ≠ [] := by
    intro h0
    rw [h0] at hhl
    simp only [List.length_nil] at hhl
    omega
  have hhd : ∀ c ∈ (data.drop start).take (p - start), isdigit c = true := by
    intro c hc0
    obtain ⟨k, hk⟩ := List.getElem?_of_mem hc0
    have hklt : k < p - start := by
      by_contra hge
      rw [List.getElem?_eq_none (by rw [hhl]; omega)] at hk
      exact absurd hk (by simp)
    rw [List.getElem?_take_of_lt hklt, List.getElem?_drop] at hk
    obtain ⟨c2, hc1, hc2⟩ := hdig (start + k) (by omega) (by omega)
    rw [hc1] at hk
    simp only [Option.some.injEq] at hk
    subst hk
    exact hc2
  have hrs := read_size_t_digits _ hhne hhd (by omega)
  have hne : digitsVal ((data.drop start).take (p - start)) ≠ SIZE_MAX := by
    unfold SIZE_MAX; omega
  have hadd : add64 (p + 1) (digitsVal ((data.drop start).take (p - start))) =
      p + 1 + digitsVal ((data.drop start).take (p - start)) := add64_eq (by omega)
  have hm : memcpy data (p + 1) (digitsVal ((data.drop start).take (p - start))) =
      some ((data.drop (p + 1)).take (digitsVal ((data.drop start).take (p - start)))) := by
    unfold memcpy
    rw [if_pos hfit]
  unfold ben_decode2
  rw [decode_digit m data _ start b (by omega) hb hbd,
    decode_str_at m data start p (by omega) hsp hplt hcolon hno, hrs, hadd, hm,
    if_neg (by omega), if_neg hne, if_neg (by omega), if_neg (by simp [hc]),
    if_neg (by simp [hmal])]

theorem isdigit_ne_e {c : Nat} (h : isdigit c = true) : c ≠ 101 := by
  intro h0; subst h0; simp [isdigit] at h

/-- Result of `strtoll` on a numeral with an optional minus sign that is in
range: its value, read to the end. -/
theorem strtoll_signed (neg : Bool) (ds : List Nat) (hne : ds ≠ [])
    (hd : ∀ c ∈ ds, isdigit c = true)
    (hlo : LLONG_MIN ≤ (if neg then -(digitsVal ds : Int) else (digitsVal ds : Int)))
    (hhi : (if neg then -(digitsVal ds : Int) else (digitsVal ds : Int)) ≤ LLONG_MAX) :
    strtoll ((if neg then 45 :: ds else ds) ++ [0]) =
      ⟨if neg then -(digitsVal ds : Int) else (digitsVal ds : Int),
        (if neg then 45 :: ds else ds).length, false⟩ := by
  have hr : ∀ c, ([0] : List Nat).head? = some c → isdigit c = false := by
    intro c hc
    simp only [List.head?_cons, Option.some.injEq] at hc
    subst hc; rfl
  cases neg with
  | true =>
    simp only [if_true] at hlo hhi ⊢
    rw [List.cons_append, strtoll_minus_digits ds [0] hne hd hr, if_neg (by omega)]
    simp [Nat.add_comm]
  | false =>
    simp only [Bool.false_eq_true, if_false] at hlo hhi ⊢
    rw [strtoll_digits ds [0] hne hd hr, if_neg (by omega)]

/-- An in-range numeral with an optional minus sign, of at most 20 bytes,
between `'i'` and `'e'` decodes to its value; the offset is left on the `'e'`. -/
theorem ben_decode2_signed (m : Mem) (pre post ds : List Nat) (neg : Bool)
    (hc : m.calloc_ok = true)
    (hlen : (pre ++ 105 :: ((if neg then 45 :: ds else ds) ++ 101 :: post)).length < 2 ^ 64)
    (hne : ds ≠ []) (hd : ∀ c ∈ ds, isdigit c = true)
    (h20 : (if neg then 45 :: ds else ds).length ≤ 20)
    (hlo : LLONG_MIN ≤ (if neg then -(digitsVal ds : Int) else (digitsVal ds : Int)))
    (hhi : (if neg then -(digitsVal ds : Int) else (digitsVal ds : Int)) ≤ LLONG_MAX) :
    ben_decode2 m (pre ++ 105 :: ((if neg then 45 :: ds else ds) ++ 101 :: post))
        (pre ++ 105 :: ((if neg then 45 :: ds else ds) ++ 101 :: post)).length pre.length =
      (.value (.int (if neg then -(digitsVal ds : Int) else (digitsVal ds : Int))),
        pre.length + 1 + (if neg then 45 :: ds else ds).length) := by
  have hs : ∀ c ∈ (if neg then 45 :: ds else ds), c ≠ 101 := by
    intro c hc0
    cases neg with
    | true =>
      simp only [if_true, List.mem_cons] at hc0
      rcases hc0 with h | h
      · omega
      · exact isdigit_ne_e (hd c h)
    | false =>
      simp only [Bool.false_eq_true, if_false] at hc0
      exact isdigit_ne_e (hd c hc0)
  have hpos : 0 < (if neg then 45 :: ds else ds).length := by
    cases neg with
    | true => simp
    | false =>
      simp only [Bool.false_eq_true, if_false]
      exact List.length_pos.mpr hne
  rw [ben_decode2_int_token m pre _ post hlen hs, strtoll_signed neg ds hne hd hlo hhi,
    if_neg (by omega)]
  simp [hc]

/-- Without a digit after the sign, `strtoll` converts nothing. -/
theorem strtoll_plus_no_digit (rest : List Nat)
    (hr : ∀ c, rest.head? = some c → isdigit c = false) :
    strtoll (43 :: rest) = ⟨0, 0, false⟩ := by
  have htw : rest.takeWhile isdigit = [] := by
    cases rest with
    | nil => rfl
    | cons r rs =>
      have := hr r rfl
      simp [List.takeWhile_cons, this]
  unfold strtoll
  have hsp : isspace 43 = false := by decide
  simp only [List.takeWhile_cons, hsp, List.length_nil, List.drop_zero, List.head?_cons,
    Bool.false_eq_true, if_false, beq_self_eq_true, Bool.or_true, if_true, List.drop_succ_cons,
    htw, List.isEmpty_nil]

/-! ## Reads stay inside the buffer -/

theorem decode_int_no_oob (m : Mem) (data : List Nat) (off : Nat)
    (hlen : data.length < 2 ^ 63) (hoff : off ≤ data.length) :
    (decode_int m data data.length off).1 ≠ .fail .oob := by
  obtain ⟨p, _, hcase⟩ := find_spec data data.length (off + 1) 101 (le_refl _)
  rcases hcase with ⟨_, hnone⟩ | ⟨g1, g2, g3, g4⟩
  · rw [decode_int_unterminated m data off (by omega) hnone]
    simp
  · rw [decode_int_at m data off p (by omega) (by omega) g2 g3 g4]
    split_ifs <;> simp

theorem decode_str_no_oob (m : Mem) (data : List Nat) (off : Nat)
    (hlen : data.length < 2 ^ 63) (hoff : off ≤ data.length) :
    (decode_str m data data.length off).1 ≠ .fail .oob := by
  obtain ⟨p, _, hcase⟩ := find_spec data data.length (off + 1) 58 (le_refl _)
  rcases hcase with ⟨_, hnone⟩ | ⟨g1, g2, g3, g4⟩
  · rw [decode_str_unterminated m data off (by omega) hnone]
    simp
  · rw [decode_str_at m data off p (by omega) (by omega) g2 g3 g4]
    by_cases c2 : read_size_t ((data.drop off).take (p - off) ++ [0]) = SIZE_MAX
    · rw [if_pos c2]
      split_ifs <;> simp
    · have hn := read_size_t_lt _ c2
      have hadd : add64 (p + 1) (read_size_t ((data.drop off).take (p - off) ++ [0])) =
          p + 1 + read_size_t ((data.drop off).take (p - off) ++ [0]) :=
        add64_eq (by omega)
      rw [hadd]
      by_cases c3 : p + 1 + read_size_t ((data.drop off).take (p - off) ++ [0]) > data.length
      · rw [if_pos c3]
        split_ifs <;> simp
      · have hm : memcpy data (p + 1)
            (read_size_t ((data.drop off).take (p - off) ++ [0])) =
            some ((data.drop (p + 1)).take
              (read_size_t ((data.drop off).take (p - off) ++ [0]))) := by
          unfold memcpy
          rw [if_pos (by omega)]
        rw [hm]
        split_ifs <;> simp

theorem decode_no_oob (m : Mem) (data : List Nat) (off : Nat) (l : Int)
    (hlen : data.length < 2 ^ 63) (hoff : off ≤ data.length) :
    (decode m data data.length off l).1 ≠ .fail .oob := by
  unfold decode
  by_cases hlt : off < data.length
  · have hb : data[off]? = some data[off] := List.getElem?_eq_getElem hlt
    have h1 := decode_str_no_oob m data off hlen hoff
    have h2 := decode_int_no_oob m data off hlen hoff
    simp only [hb]
    split_ifs <;> simp [h1, h2]
  · have he : off = data.length := by omega
    simp only [he, if_true]
    split_ifs <;> simp

/-! ## Cursor after an integer -/

/-- C1 (the code departs from the claim): after a successful integer decode the
offset is the position of the terminating `'e'` itself, not the position after
it.  Decoding `i0e` from offset 0 gives Integer 0 with offset 2 (not 3), `i-42e`
gives -42 with offset 4 (not 5), and `i9223372036854775807e` gives 2^63-1 with
offset 20 (not 21). -/
theorem int_cursor_on_terminator :
    ben_decode2 Mem.ok [105, 48, 101] 3 0 = (.value (.int 0), 2) ∧
    ben_decode2 Mem.ok [105, 45, 52, 50, 101] 5 0 = (.value (.int (-42)), 4) ∧
    ben_decode2 Mem.ok [105, 57, 50, 50, 51, 51, 55, 50, 48, 51, 54, 56, 53, 52, 55, 55, 53, 56, 48, 55, 101] 21 0
      = (.value (.int (2 ^ 63 - 1)), 20) := by
  decide

/-- C2 (the code departs from the claim): on the concatenation `i1ei2e` of two
integer tokens the first call succeeds with Integer 1 and leaves the offset at 2,
on the `'e'` of the first token, and the second call from that offset fails with
an unknown type instead of giving Integer 2. -/
theorem resumption_after_int_fails :
    ben_decode2 Mem.ok [105, 49, 101, 105, 50, 101] 6 0 = (.value (.int 1), 2) ∧
    ben_decode2 Mem.ok [105, 49, 101, 105, 50, 101] 6 2
      = (.fail (.invalid .unknown_type 2), 2) := by
  decide

/-! ## Round trip, cursor and bounds -/

/-- C3: round trip with a conforming encoder.  For every integer `v` in
`[-2^63, 2^63-1]`, `ben_decode` of `'i' ++ decimal(v) ++ 'e'` succeeds with
Integer `v`; for every byte sequence `s` of length at most `2^20`, `ben_decode`
of `decimal(|s|) ++ ':' ++ s` succeeds with a byte string of length `|s|` whose
bytes are `s` (the allocator granting the node and the `|s|` bytes). -/
theorem round_trip (m : Mem) (v : Int) (s : List Nat)
    (hc : m.calloc_ok = true) (hmal : m.malloc_ok s.length = true)
    (hlo : LLONG_MIN ≤ v) (hhi : v ≤ LLONG_MAX) (hs : s.length ≤ 2 ^ 20) :
    ben_decode m (encode_int v) (encode_int v).length = .value (.int v) ∧
    ben_decode m (encode_str s) (encode_str s).length = .value (.str s s.length) := by
  constructor
  · have hval := digitsVal_decimal v.natAbs
    have hl19 : (decimal v.natAbs).length ≤ 19 := by
      apply decimal_length _ 19 (by norm_num)
      unfold LLONG_MIN LLONG_MAX at *
      omega
    have hpos : 0 < (decimal v.natAbs).length := List.length_pos.mpr (decimal_ne_nil _)
    unfold ben_decode
    by_cases hneg : v < 0
    · have h := ben_decode2_signed m [] [] (decimal v.natAbs) true hc
        (by simp only [if_true, List.nil_append, List.length_cons, List.length_append,
              List.length_nil]; omega)
        (decimal_ne_nil _) (decimal_isdigit _)
        (by simp only [if_true, List.length_cons]; omega)
        (by simp only [if_true, hval]; omega)
        (by simp only [if_true, hval]; unfold LLONG_MAX; omega)
      unfold ben_decode2 at h
      simp only [if_true, List.nil_append, List.length_nil, hval] at h
      have he : encode_int v = 105 :: (45 :: decimal v.natAbs ++ [101]) := by
        simp [encode_int, decimalInt, hneg]
      rw [he, h]
      simp only [Outcome.value.injEq, Value.int.injEq]
      omega
    · have h := ben_decode2_signed m [] [] (decimal v.natAbs) false hc
        (by simp only [Bool.false_eq_true, if_false, List.nil_append, List.length_cons,
              List.length_append, List.length_nil]; omega)
        (decimal_ne_nil _) (decimal_isdigit _)
        (by simp only [Bool.false_eq_true, if_false]; omega)
        (by simp only [Bool.false_eq_true, if_false, hval]; unfold LLONG_MIN; omega)
        (by simp only [Bool.false_eq_true, if_false, hval]; omega)
      unfold ben_decode2 at h
      simp only [Bool.false_eq_true, if_false, List.nil_append, List.length_nil, hval] at h
      have he : encode_int v = 105 :: (decimal v.natAbs ++ [101]) := by
        simp [encode_int, decimalInt, hneg]
      rw [he, h]
      simp only [Outcome.value.injEq, Value.int.injEq]
      omega
  · have hl7 : (decimal s.length).length ≤ 7 := by
      apply decimal_length _ 7 (by norm_num)
      have : (2 : Nat) ^ 20 < 10 ^ 7 := by norm_num
      omega
    have hpos : 0 < (decimal s.length).length := List.length_pos.mpr (decimal_ne_nil _)
    have hdl : (encode_str s).length = (decimal s.length).length + 1 + s.length := by
      simp only [encode_str, List.length_append, List.length_cons]
      omega
    have hhdr : ((encode_str s).drop 0).take ((decimal s.length).length - 0)
        = decimal s.length := by
      simp only [List.drop_zero, Nat.sub_zero, encode_str]
      exact List.take_left _ _
    have h20 : (2 : Nat) ^ 20 < 2 ^ 62 := by norm_num
    have h := ben_decode2_str_digits m (encode_str s) 0 (decimal s.length).length
      (by rw [hdl]; omega) hpos (by omega)
      (by
        intro j _ hj
        refine ⟨(decimal s.length)[j], ?_, decimal_isdigit _ _ (List.getElem_mem _)⟩
        unfold encode_str
        rw [List.getElem?_append_left hj, List.getElem?_eq_getElem hj])
      (by
        unfold encode_str
        rw [List.getElem?_append_right (le_refl _)]
        simp)
      (by rw [hhdr, digitsVal_decimal, hdl])
      hc (by rw [hhdr, digitsVal_decimal]; exact hmal)
    rw [hhdr, digitsVal_decimal] at h
    unfold ben_decode
    unfold ben_decode2 at h
    rw [h]
    have hpay : ((encode_str s).drop ((decimal s.length).length + 1)).take s.length = s := by
      have : encode_str s = (decimal s.length ++ [58]) ++ s := by simp [encode_str]
      rw [this, List.drop_left' (by simp), List.take_length]
    rw [hpay]

/-- Witness of C3 at `v = -42` and `s = abc`. -/
theorem round_trip_witness :
    ben_decode Mem.ok (encode_int (-42)) (encode_int (-42)).length = .value (.int (-42)) ∧
    ben_decode Mem.ok (encode_str [97, 98, 99]) (encode_str [97, 98, 99]).length
      = .value (.str [97, 98, 99] 3) :=
  round_trip Mem.ok (-42) [97, 98, 99] rfl rfl (by decide) (by decide) (by decide)

/-- C4: cursor monotonicity.  On a buffer of fewer than `2^63` bytes and from an
initial offset at most the length, a successful `ben_decode2` returns an offset
strictly greater than the initial one and at most the length. -/
theorem cursor_monotone (m : Mem) (data : List Nat) (off off1 : Nat) (v : Value)
    (hlen : data.length < 2 ^ 63) (hoff : off ≤ data.length)
    (h : ben_decode2 m data data.length off = (.value v, off1)) :
    off < off1 ∧ off1 ≤ data.length := by
  obtain ⟨hlt, hcase⟩ := ben_decode2_value m data off off1 v hoff h
  rcases hcase with ⟨_, hi⟩ | ⟨b, _, _, hs⟩
  · obtain ⟨p, h1, h2, _, _, _, _, _, _, h9⟩ :=
      decode_int_value m data off off1 v (by omega) hlt hi
    omega
  · obtain ⟨p, n, h1, h2, _, _, _, _, _, h8, _, h10⟩ :=
      decode_str_value m data off off1 v hlen hlt hs
    omega

/-- Witness of C4 at `3:abc` from offset 0. -/
theorem cursor_monotone_witness :
    ben_decode2 Mem.ok [51, 58, 97, 98, 99] [51, 58, 97, 98, 99].length 0
      = (.value (.str [97, 98, 99] 3), 5) ∧
    (0 < 5 ∧ 5 ≤ [51, 58, 97, 98, 99].length) :=
  ⟨by decide, cursor_monotone Mem.ok [51, 58, 97, 98, 99] 0 5 (.str [97, 98, 99] 3)
    (by decide) (by decide) (by decide)⟩

/-- C5: bounds safety.  On a buffer of `length` bytes (fewer than `2^63`) and
from a start offset at most `length`, none of `find`, `decode_int`,
`decode_str`, `decode`, `ben_decode2` and `ben_decode` reads a byte at an index
that is not below `length`: the out-of-range branch of the indexing is never
taken, whether the call succeeds or fails. -/
theorem bounds_safety (m : Mem) (data : List Nat) (off c : Nat) (l : Int)
    (hlen : data.length < 2 ^ 63) (hoff : off ≤ data.length) :
    find data data.length off c ≠ none ∧
    (decode_int m data data.length off).1 ≠ .fail .oob ∧
    (decode_str m data data.length off).1 ≠ .fail .oob ∧
    (decode m data data.length off l).1 ≠ .fail .oob ∧
    (ben_decode2 m data data.length off).1 ≠ .fail .oob ∧
    ben_decode m data data.length ≠ .fail .oob := by
  refine ⟨?_, decode_int_no_oob m data off hlen hoff, decode_str_no_oob m data off hlen hoff,
    decode_no_oob m data off l hlen hoff, decode_no_oob m data off 0 hlen hoff,
    decode_no_oob m data 0 0 hlen (Nat.zero_le _)⟩
  obtain ⟨p, hp, _⟩ := find_spec data data.length off c (le_refl _)
  rw [hp]
  simp

/-- Witness of C5 at `5:abc`, whose declared length leaves the buffer. -/
theorem bounds_safety_witness :
    find [53, 58, 97, 98, 99] 5 0 58 ≠ none ∧
    (decode_int Mem.ok [53, 58, 97, 98, 99] 5 0).1 ≠ .fail .oob ∧
    (decode_str Mem.ok [53, 58, 97, 98, 99] 5 0).1 ≠ .fail .oob ∧
    (decode Mem.ok [53, 58, 97, 98, 99] 5 0 0).1 ≠ .fail .oob ∧
    (ben_decode2 Mem.ok [53, 58, 97, 98, 99] 5 0).1 ≠ .fail .oob ∧
    ben_decode Mem.ok [53, 58, 97, 98, 99] 5 ≠ .fail .oob :=
  bounds_safety Mem.ok [53, 58, 97, 98, 99] 0 58 0 (by decide) (by decide)

/-! ## The byte-string reader -/

/-- C6: byte-string reader result.  On a buffer of fewer than `2^63` bytes, when
`data[start .. p)` is a non-empty run of fewer than 21 decimal digits denoting
`n` (so `data[start]` is a digit and the first `':'` after `start` is the one at
`p`), `data[p]` is `':'` and `p + 1 + n <= length`, `ben_decode2` succeeds with a
byte string of length exactly `n` whose bytes are `data[p+1 .. p+1+n)` and sets
the offset to `p + 1 + n` (the allocator granting the node and the `n` bytes). -/
theorem byte_string_result (m : Mem) (data : List Nat) (start p : Nat)
    (hlen : data.length < 2 ^ 63) (hsp : start < p) (hp21 : p - start < 21)
    (hdig : ∀ j, start ≤ j → j < p → ∃ b, data[j]? = some b ∧ isdigit b = true)
    (hcolon : data[p]? = some 58)
    (hfit : p + 1 + digitsVal ((data.drop start).take (p - start)) ≤ data.length)
    (hc : m.calloc_ok = true)
    (hmal : m.malloc_ok (digitsVal ((data.drop start).take (p - start))) = true) :
    ben_decode2 m data data.length start =
      (.value (.str ((data.drop (p + 1)).take (digitsVal ((data.drop start).take (p - start))))
          (digitsVal ((data.drop start).take (p - start)))),
        p + 1 + digitsVal ((data.drop start).take (p - start))) ∧
    ((data.drop (p + 1)).take (digitsVal ((data.drop start).take (p - start)))).length
      = digitsVal ((data.drop start).take (p - start)) := by
  refine ⟨ben_decode2_str_digits m data start p hlen hsp hp21 hdig hcolon hfit hc hmal, ?_⟩
  rw [List.length_take, List.length_drop]
  omega

/-- Witness of C6 at `0:` (empty string, offset 2) and at `03:a`, followed by a
zero byte and `c` (leading zero in the length, a zero byte in the payload). -/
theorem byte_string_result_witness :
    (ben_decode2 Mem.ok [48, 58] 2 0 = (.value (.str [] 0), 2) ∧
      ([] : List Nat).length = 0) ∧
    (ben_decode2 Mem.ok [48, 51, 58, 97, 0, 99] 6 0 = (.value (.str [97, 0, 99] 3), 6) ∧
      [97, 0, 99].length = 3) :=
  ⟨byte_string_result Mem.ok [48, 58] 0 1 (by decide) (by decide) (by decide)
      (by
        intro j h0 h1
        have hj : j = 0 := by omega
        subst hj
        exact ⟨48, rfl, rfl⟩)
      rfl (by decide) rfl rfl,
    byte_string_result Mem.ok [48, 51, 58, 97, 0, 99] 0 2 (by decide) (by decide) (by decide)
      (by
        intro j h0 h1
        have hj : j = 0 ∨ j = 1 := by omega
        rcases hj with hj | hj
        · subst hj; exact ⟨48, rfl, rfl⟩
        · subst hj; exact ⟨51, rfl, rfl⟩)
      rfl (by decide) rfl rfl⟩

/-- C7: declared length out of bounds.  On a buffer of fewer than `2^63` bytes,
when the byte at the offset is a digit, `find` locates the `':'` at `p`, the
header has fewer than 21 bytes and `read_size_t` parses it to a count `n`, and
`p + 1 + n` as an unbounded number exceeds the length, then decoding fails with
"too long a string (data out of bounds)", of kind length-out-of-bounds, and the
offset is unchanged; the machine addition `pos + 1 + datalen` does not wrap. -/
theorem declared_length_out_of_bounds (m : Mem) (data : List Nat) (off p b n : Nat)
    (hlen : data.length < 2 ^ 63) (hoff : off < data.length)
    (hb : data[off]? = some b) (hd : isdigit b = true)
    (hf : find data data.length (add64 off 1) 58 = some p) (hp : p ≠ SIZE_MAX)
    (h21 : sub64 p off < 21)
    (hn : read_size_t ((data.drop off).take (p - off) ++ [0]) = n) (hn1 : n ≠ SIZE_MAX)
    (hbig : p + 1 + n > data.length) :
    ben_decode2 m data data.length off = (.fail (.invalid .too_long_string off), off) ∧
    (Failure.invalid .too_long_string off).kind = some .length_out_of_bounds ∧
    add64 (add64 p 1) n = p + 1 + n := by
  have ha : add64 off 1 = off + 1 := add64_eq (by omega)
  rw [ha] at hf
  obtain ⟨q, hq, hcase⟩ := find_spec data data.length (off + 1) 58 (le_refl _)
  rw [hf] at hq
  simp only [Option.some.injEq] at hq
  subst hq
  rcases hcase with ⟨g, _⟩ | ⟨g1, g2, g3, g4⟩
  · exact absurd g hp
  · have hs : sub64 p off = p - off := sub64_eq (by omega) (by omega)
    rw [hs] at h21
    have hnlt : n < 2 ^ 63 := by
      rw [← hn] at hn1 ⊢
      exact read_size_t_lt _ hn1
    have ha1 : add64 p 1 = p + 1 := add64_eq (by omega)
    have hadd : add64 (p + 1) n = p + 1 + n := add64_eq (by omega)
    refine ⟨?_, rfl, by rw [ha1, hadd]⟩
    unfold ben_decode2
    rw [decode_digit m data _ off b hoff hb hd,
      decode_str_at m data off p (by omega) (by omega) g2 g3 g4, hn, hadd,
      if_neg (by omega), if_neg hn1, if_pos hbig]

/-- Witness of C7 at `5:abc`. -/
theorem declared_length_out_of_bounds_witness :
    ben_decode2 Mem.ok [53, 58, 97, 98, 99] [53, 58, 97, 98, 99].length 0
      = (.fail (.invalid .too_long_string 0), 0) ∧
    (Failure.invalid .too_long_string 0).kind = some .length_out_of_bounds ∧
    add64 (add64 1 1) 5 = 1 + 1 + 5 :=
  declared_length_out_of_bounds Mem.ok [53, 58, 97, 98, 99] 0 1 53 5
    (by decide) (by decide) rfl rfl (by decide) (by decide) (by decide) (by decide)
    (by decide) (by decide)

/-! ## The integer reader -/

/-- C8: integer parse value.  For every token `i<span>e` (anywhere in a buffer)
whose span has at most 20 bytes and is an optional `'-'` followed by at least one
decimal digit, denoting `v` in `[-2^63, 2^63-1]`, decoding succeeds with Integer
`v` (the allocator granting the node); leading zeros are allowed and `i-0e`
gives Integer 0. -/
theorem integer_parse_value (m : Mem) (pre post ds : List Nat) (neg : Bool)
    (hc : m.calloc_ok = true)
    (hlen : (pre ++ 105 :: ((if neg then 45 :: ds else ds) ++ 101 :: post)).length < 2 ^ 64)
    (hne : ds ≠ []) (hd : ∀ c ∈ ds, isdigit c = true)
    (h20 : (if neg then 45 :: ds else ds).length ≤ 20)
    (hlo : LLONG_MIN ≤ (if neg then -(digitsVal ds : Int) else (digitsVal ds : Int)))
    (hhi : (if neg then -(digitsVal ds : Int) else (digitsVal ds : Int)) ≤ LLONG_MAX) :
    (ben_decode2 m (pre ++ 105 :: ((if neg then 45 :: ds else ds) ++ 101 :: post))
        (pre ++ 105 :: ((if neg then 45 :: ds else ds) ++ 101 :: post)).length pre.length).1 =
      .value (.int (if neg then -(digitsVal ds : Int) else (digitsVal ds : Int))) := by
  rw [ben_decode2_signed m pre post ds neg hc hlen hne hd h20 hlo hhi]

/-- Witness of C8 at `i-0e` and at `i007e`. -/
theorem integer_parse_value_witness :
    (ben_decode2 Mem.ok [105, 45, 48, 101] 4 0).1 = .value (.int 0) ∧
    (ben_decode2 Mem.ok [105, 48, 48, 55, 101] 5 0).1 = .value (.int 7) :=
  ⟨integer_parse_value Mem.ok [] [] [48] true rfl (by decide) (by decide) (by decide)
      (by decide) (by decide) (by decide),
    integer_parse_value Mem.ok [] [] [48, 48, 55] false rfl (by decide) (by decide) (by decide)
      (by decide) (by decide) (by decide)⟩

/-- C9: integer range rejection.  For every token `i<span>e` whose span is an
optional `'-'` followed by decimal digits denoting a number outside
`[-2^63, 2^63-1]`, decoding fails with a failure of kind malformed-number and
leaves the offset unchanged; `i9223372036854775807e` and
`i-9223372036854775808e` succeed. -/
theorem integer_range_rejection (m : Mem) (pre post ds : List Nat) (neg : Bool)
    (hlen : (pre ++ 105 :: ((if neg then 45 :: ds else ds) ++ 101 :: post)).length < 2 ^ 64)
    (hne : ds ≠ []) (hd : ∀ c ∈ ds, isdigit c = true)
    (hout : (if neg then -(digitsVal ds : Int) else (digitsVal ds : Int)) < LLONG_MIN ∨
      LLONG_MAX < (if neg then -(digitsVal ds : Int) else (digitsVal ds : Int))) :
    (∃ f, ben_decode2 m (pre ++ 105 :: ((if neg then 45 :: ds else ds) ++ 101 :: post))
        (pre ++ 105 :: ((if neg then 45 :: ds else ds) ++ 101 :: post)).length pre.length
          = (.fail f, pre.length) ∧ f.kind = some .malformed_number) ∧
    (ben_decode2 Mem.ok [105, 57, 50, 50, 51, 51, 55, 50, 48, 51, 54, 56, 53, 52, 55, 55, 53, 56, 48, 55, 101] 21 0).1
      = .value (.int (2 ^ 63 - 1)) ∧
    (ben_decode2 Mem.ok [105, 45, 57, 50, 50, 51, 51, 55, 50, 48, 51, 54, 56, 53, 52, 55, 55, 53, 56, 48, 56, 101] 22 0).1
      = .value (.int (-(2 ^ 63))) := by
  refine ⟨?_, by decide, by decide⟩
  have hs : ∀ c ∈ (if neg then 45 :: ds else ds), c ≠ 101 := by
    intro c hc0
    cases neg with
    | true =>
      simp only [if_true, List.mem_cons] at hc0
      rcases hc0 with h | h
      · omega
      · exact isdigit_ne_e (hd c h)
    | false =>
      simp only [Bool.false_eq_true, if_false] at hc0
      exact isdigit_ne_e (hd c hc0)
  have hr : ∀ c, ([0] : List Nat).head? = some c → isdigit c = false := by
    intro c hc
    simp only [List.head?_cons, Option.some.injEq] at hc
    subst hc; rfl
  have hnn : (0 : Int) ≤ (digitsVal ds : Int) := Int.natCast_nonneg _
  rw [ben_decode2_int_token m pre _ post hlen hs]
  by_cases hsl : (if neg then 45 :: ds else ds).length = 0 ∨
      (if neg then 45 :: ds else ds).length ≥ 21
  · rw [if_pos hsl]
    exact ⟨_, rfl, rfl⟩
  · rw [if_neg hsl]
    have her : (strtoll ((if neg then 45 :: ds else ds) ++ [0])).erange = true := by
      cases neg with
      | true =>
        simp only [if_true] at hout ⊢
        rw [List.cons_append, strtoll_minus_digits ds [0] hne hd hr,
          if_pos (by unfold LLONG_MIN LLONG_MAX at *; omega)]
      | false =>
        simp only [Bool.false_eq_true, if_false] at hout ⊢
        rw [strtoll_digits ds [0] hne hd hr,
          if_pos (by unfold LLONG_MIN LLONG_MAX at *; omega)]
    rw [if_pos (Or.inl her)]
    exact ⟨_, rfl, rfl⟩

/-- Witness of C9 at `i9223372036854775808e`. -/
theorem integer_range_rejection_witness :
    (∃ f, ben_decode2 Mem.ok [105, 57, 50, 50, 51, 51, 55, 50, 48, 51, 54, 56, 53, 52, 55, 55, 53, 56, 48, 56, 101] 21 0
        = (.fail f, 0) ∧ f.kind = some .malformed_number) ∧
    (ben_decode2 Mem.ok [105, 57, 50, 50, 51, 51, 55, 50, 48, 51, 54, 56, 53, 52, 55, 55, 53, 56, 48, 55, 101] 21 0).1
      = .value (.int (2 ^ 63 - 1)) ∧
    (ben_decode2 Mem.ok [105, 45, 57, 50, 50, 51, 51, 55, 50, 48, 51, 54, 56, 53, 52, 55, 55, 53, 56, 48, 56, 101] 22 0).1
      = .value (.int (-(2 ^ 63))) :=
  integer_range_rejection Mem.ok [] []
    [57, 50, 50, 51, 51, 55, 50, 48, 51, 54, 56, 53, 52, 55, 55, 53, 56, 48, 56] false
    (by decide) (by decide) (by decide) (by decide)

/-- C10, counterexample: `i+5e` does not fail; it decodes to Integer 5. -/
theorem leading_plus_accepted :
    ben_decode2 Mem.ok [105, 43, 53, 101] 4 0 = (.value (.int 5), 3) ∧
    ben_decode Mem.ok [105, 43, 53, 101] 4 = .value (.int 5) := by
  decide

/-- C10, amended: a leading `'+'` is taken as a sign.  For a token whose span is
`'+'` followed by `rest` (no `'e'` in `rest`): when `rest` is one or more decimal
digits, at most 19 of them, denoting `v <= 2^63-1`, decoding succeeds with
Integer `v`; when `rest` is one or more decimal digits that are more than 19 or
denote a number above `2^63-1`, and when `rest` does not begin with a digit,
decoding fails with a failure of kind malformed-number. -/
theorem leading_plus (m : Mem) (pre post rest : List Nat)
    (hlen : (pre ++ 105 :: ((43 :: rest) ++ 101 :: post)).length < 2 ^ 64)
    (hs : ∀ c ∈ rest, c ≠ 101) :
    ((rest ≠ [] ∧ (∀ c ∈ rest, isdigit c = true) ∧ rest.length ≤ 19 ∧
        (digitsVal rest : Int) ≤ LLONG_MAX ∧ m.calloc_ok = true) →
      (ben_decode2 m (pre ++ 105 :: ((43 :: rest) ++ 101 :: post))
        (pre ++ 105 :: ((43 :: rest) ++ 101 :: post)).length pre.length).1
          = .value (.int (digitsVal rest))) ∧
    ((rest ≠ [] ∧ (∀ c ∈ rest, isdigit c = true) ∧
        (19 < rest.length ∨ LLONG_MAX < (digitsVal rest : Int))) →
      ∃ f, ben_decode2 m (pre ++ 105 :: ((43 :: rest) ++ 101 :: post))
        (pre ++ 105 :: ((43 :: rest) ++ 101 :: post)).length pre.length
          = (.fail f, pre.length) ∧ f.kind = some .malformed_number) ∧
    ((∀ c, rest.head? = some c → isdigit c = false) →
      ∃ f, ben_decode2 m (pre ++ 105 :: ((43 :: rest) ++ 101 :: post))
        (pre ++ 105 :: ((43 :: rest) ++ 101 :: post)).length pre.length
          = (.fail f, pre.length) ∧ f.kind = some .malformed_number) := by
  have hs1 : ∀ c ∈ 43 :: rest, c ≠ 101 := by
    intro c hc0
    simp only [List.mem_cons] at hc0
    rcases hc0 with h | h
    · omega
    · exact hs c h
  have hr : ∀ c, ([0] : List Nat).head? = some c → isdigit c = false := by
    intro c hc
    simp only [List.head?_cons, Option.some.injEq] at hc
    subst hc; rfl
  have hl : (43 :: rest).length = rest.length + 1 := rfl
  rw [ben_decode2_int_token m pre _ post hlen hs1, hl, List.cons_append]
  refine ⟨?_, ?_, ?_⟩
  · rintro ⟨hne, hd, h19, hv, hc⟩
    have hsl : ¬ (rest.length + 1 = 0 ∨ rest.length + 1 ≥ 21) := by omega
    have hmax : ¬ ((digitsVal rest : Int) > LLONG_MAX) := not_lt.mpr hv
    rw [if_neg hsl, strtoll_plus_digits rest [0] hne hd hr, if_neg hmax]
    have hend : (43 :: (rest ++ [0]))[1 + rest.length]? = some 0 := by
      rw [Nat.add_comm, List.getElem?_cons_succ]
      simp
    simp [hend, hc]
  · rintro ⟨hne, hd, hbad⟩
    by_cases hsl : rest.length + 1 = 0 ∨ rest.length + 1 ≥ 21
    · rw [if_pos hsl]
      exact ⟨_, rfl, rfl⟩
    · rw [if_neg hsl]
      have hv : LLONG_MAX < (digitsVal rest : Int) := by
        rcases hbad with h | h
        · omega
        · exact h
      rw [strtoll_plus_digits rest [0] hne hd hr, if_pos hv, if_pos (Or.inl rfl)]
      exact ⟨_, rfl, rfl⟩
  · intro hnd
    by_cases hsl : rest.length + 1 = 0 ∨ rest.length + 1 ≥ 21
    · rw [if_pos hsl]
      exact ⟨_, rfl, rfl⟩
    · rw [if_neg hsl]
      have hnd0 : ∀ c, (rest ++ [0]).head? = some c → isdigit c = false := by
        intro c hc0
        cases rest with
        | nil =>
          simp only [List.nil_append, List.head?_cons, Option.some.injEq] at hc0
          subst hc0; rfl
        | cons r rs => exact hnd c hc0
      rw [strtoll_plus_no_digit (rest ++ [0]) hnd0, if_pos (Or.inr (by simp))]
      exact ⟨_, rfl, rfl⟩

/-- Witness of the amended C10 at `i+5e`. -/
theorem leading_plus_witness :
    (([53] : List Nat) ≠ [] ∧ (∀ c ∈ ([53] : List Nat), isdigit c = true) ∧
        ([53] : List Nat).length ≤ 19 ∧
        (digitsVal [53] : Int) ≤ LLONG_MAX ∧ Mem.ok.calloc_ok = true) ∧
    (ben_decode2 Mem.ok [105, 43, 53, 101] 4 0).1 = .value (.int (digitsVal [53])) :=
  ⟨by decide,
    (leading_plus Mem.ok [] [] [53] (by decide) (by decide)).1 (by decide)⟩

/-! ## Failures of the integer reader and of the dispatcher -/

/-- C13: empty or over-long integer span.  For every token `i<span>e` (anywhere
in a buffer, `span` being the bytes up to the first `'e'`, whatever they are)
whose span has length 0 or length 21 or more, decoding fails with "bad int
slen", of kind malformed-number, and leaves the offset unchanged. -/
theorem int_span_length_rejected (m : Mem) (pre span post : List Nat)
    (hlen : (pre ++ 105 :: (span ++ 101 :: post)).length < 2 ^ 64)
    (hs : ∀ c ∈ span, c ≠ 101)
    (hbad : span.length = 0 ∨ span.length ≥ 21) :
    ben_decode2 m (pre ++ 105 :: (span ++ 101 :: post))
        (pre ++ 105 :: (span ++ 101 :: post)).length pre.length
      = (.fail (.invalid .bad_int_slen pre.length), pre.length) ∧
    (Failure.invalid .bad_int_slen pre.length).kind = some .malformed_number := by
  rw [ben_decode2_int_token m pre span post hlen hs, if_pos hbad]
  exact ⟨rfl, rfl⟩

/-- Witness of C13 at `ie` and at `i000000000000000000001e` (21 digits). -/
theorem int_span_length_rejected_witness :
    (ben_decode2 Mem.ok [105, 101] 2 0 = (.fail (.invalid .bad_int_slen 0), 0) ∧
      (Failure.invalid .bad_int_slen 0).kind = some .malformed_number) ∧
    (ben_decode2 Mem.ok
        [105, 48, 48, 48, 48, 48, 48, 48, 48, 48, 48, 48, 48, 48, 48, 48, 48, 48, 48, 48, 48,
          49, 101] 23 0 = (.fail (.invalid .bad_int_slen 0), 0) ∧
      (Failure.invalid .bad_int_slen 0).kind = some .malformed_number) :=
  ⟨int_span_length_rejected Mem.ok [] [] [] (by decide) (by decide) (by decide),
    int_span_length_rejected Mem.ok []
      [48, 48, 48, 48, 48, 48, 48, 48, 48, 48, 48, 48, 48, 48, 48, 48, 48, 48, 48, 48, 49] []
      (by decide) (by decide) (by decide)⟩

/-- C14: unterminated token.  On a buffer of fewer than `2^64` bytes, when the
byte at the offset is `'i'` and no `'e'` occurs in `[offset+1, length)`, and when
the byte at the offset is a digit and no `':'` occurs in `[offset+1, length)`,
decoding fails with `overflow`, of kind overflow, and leaves the offset
unchanged. -/
theorem unterminated_token (m : Mem) (data : List Nat) (off : Nat)
    (hlen : data.length < 2 ^ 64) (hoff : off < data.length) :
    (data[off]? = some 105 →
      (∀ j, off + 1 ≤ j → j < data.length → data[j]? ≠ some 101) →
      ben_decode2 m data data.length off = (.fail (.overflow off), off)) ∧
    (∀ b, data[off]? = some b → isdigit b = true →
      (∀ j, off + 1 ≤ j → j < data.length → data[j]? ≠ some 58) →
      ben_decode2 m data data.length off = (.fail (.overflow off), off)) ∧
    (Failure.overflow off).kind = some .overflow := by
  refine ⟨?_, ?_, rfl⟩
  · intro hb hno
    unfold ben_decode2
    rw [decode_i m data _ off hoff hb, decode_int_unterminated m data off (by omega) hno]
  · intro b hb hd hno
    unfold ben_decode2
    rw [decode_digit m data _ off b hoff hb hd,
      decode_str_unterminated m data off (by omega) hno]

/-- Witness of C14 at the one-byte input `i` and at the input `12`. -/
theorem unterminated_token_witness :
    ben_decode2 Mem.ok [105] [105].length 0 = (.fail (.overflow 0), 0) ∧
    ben_decode2 Mem.ok [49, 50] [49, 50].length 0 = (.fail (.overflow 0), 0) :=
  ⟨(unterminated_token Mem.ok [105] 0 (by decide) (by decide)).1 rfl
      (by
        intro j h1 h2
        have h3 : j < 1 := h2
        omega),
    (unterminated_token Mem.ok [49, 50] 0 (by decide) (by decide)).2.1 49 rfl rfl
      (by
        intro j h1 h2
        have h3 : j < 2 := h2
        have hj : j = 1 := by omega
        subst hj
        decide)⟩

/-- C15, counterexample: decoding `:abc` from offset 0 fails with "unknown
bencode type", whose kind is unknown-type and not malformed-number. -/
theorem colon_first_is_unknown_type :
    ben_decode2 Mem.ok [58, 97, 98, 99] 4 0 = (.fail (.invalid .unknown_type 0), 0) ∧
    (Failure.invalid .unknown_type 0).kind = some .unknown_type ∧
    (Failure.invalid .unknown_type 0).kind ≠ some .malformed_number := by
  decide

/-- C15, amended: a token that starts directly with `':'` is reported by the
dispatcher as an unknown type (so `:abc` fails with unknown-type), and the
byte-string reader never takes its `slen == 0` rejection: the position `find`
returns from `offset + 1` on is beyond the offset, so the header length is at
least 1. -/
theorem missing_length_is_unknown_type (m : Mem) (data : List Nat) (off : Nat)
    (hlen : data.length < 2 ^ 64) (hoff : off < data.length)
    (hb : data[off]? = some 58) :
    ben_decode2 m data data.length off = (.fail (.invalid .unknown_type off), off) ∧
    (Failure.invalid .unknown_type off).kind = some .unknown_type ∧
    (∀ p, find data data.length (add64 off 1) 58 = some p → p ≠ SIZE_MAX →
      sub64 p off ≠ 0) := by
  refine ⟨?_, rfl, ?_⟩
  · unfold ben_decode2
    exact decode_other m data _ off 58 hoff hb (by decide) (by decide)
  · intro p hf hp
    have ha : add64 off 1 = off + 1 := add64_eq (by omega)
    rw [ha] at hf
    obtain ⟨q, hq, hcase⟩ := find_spec data data.length (off + 1) 58 (le_refl _)
    rw [hf] at hq
    simp only [Option.some.injEq] at hq
    subst hq
    rcases hcase with ⟨g, _⟩ | ⟨g1, g2, _, _⟩
    · exact absurd g hp
    · rw [sub64_eq (by omega) (by omega)]
      omega

/-- Witness of the amended C15 at `:abc`. -/
theorem missing_length_is_unknown_type_witness :
    ben_decode2 Mem.ok [58, 97, 98, 99] [58, 97, 98, 99].length 0
      = (.fail (.invalid .unknown_type 0), 0) ∧
    (Failure.invalid .unknown_type 0).kind = some .unknown_type ∧
    (∀ p, find [58, 97, 98, 99] [58, 97, 98, 99].length (add64 0 1) 58 = some p →
      p ≠ SIZE_MAX → sub64 p 0 ≠ 0) :=
  missing_length_is_unknown_type Mem.ok [58, 97, 98, 99] 0 (by decide) (by decide) rfl

/-- C16: unknown type.  When the byte at an offset below the length is neither
`'i'` nor a decimal digit, `ben_decode2` fails with "unknown bencode type", of
kind unknown-type, returns no value and leaves the offset unchanged, and so does
`ben_decode` when the offset is 0; when the offset equals the length,
`ben_decode2` fails with the empty failure, and so does `ben_decode` on a buffer
of length 0. -/
theorem dispatch_unknown_type (m : Mem) (data : List Nat) (off b : Nat)
    (hoff : off < data.length) (hb : data[off]? = some b)
    (hd : isdigit b = false) (hi : b ≠ 105) :
    ben_decode2 m data data.length off = (.fail (.invalid .unknown_type off), off) ∧
    (Failure.invalid .unknown_type off).kind = some .unknown_type ∧
    (off = 0 → ben_decode m data data.length = .fail (.invalid .unknown_type 0)) ∧
    ben_decode2 m data data.length data.length = (.fail .empty, data.length) ∧
    ben_decode m [] 0 = .fail .empty ∧
    Failure.empty.kind = some .empty := by
  have h := decode_other m data data.length off b hoff hb hd hi
  refine ⟨h, rfl, ?_, ?_, ?_, rfl⟩
  · intro h0
    subst h0
    unfold ben_decode
    rw [h]
  · unfold ben_decode2 decode
    have h1 : ¬ ((0 : Int) + 1 > 256) := by decide
    simp only [h1, if_false, if_true]
  · unfold ben_decode decode
    have h1 : ¬ ((0 : Int) + 1 > 256) := by decide
    simp only [h1, if_false, if_true]

/-- Witness of C16 at `le`. -/
theorem dispatch_unknown_type_witness :
    ben_decode2 Mem.ok [108, 101] [108, 101].length 0
      = (.fail (.invalid .unknown_type 0), 0) ∧
    (Failure.invalid .unknown_type 0).kind = some .unknown_type ∧
    ((0 : Nat) = 0 → ben_decode Mem.ok [108, 101] [108, 101].length
      = .fail (.invalid .unknown_type 0)) ∧
    ben_decode2 Mem.ok [108, 101] [108, 101].length [108, 101].length
      = (.fail .empty, [108, 101].length) ∧
    ben_decode Mem.ok [] 0 = .fail .empty ∧
    Failure.empty.kind = some .empty :=
  dispatch_unknown_type Mem.ok [108, 101] 0 108 (by decide) rfl rfl (by decide)


/-! ## Depth guard and the offset on failure -/

/-- The reader `decode_int` either fails, with a failure other than the depth
failure and with `*off` unchanged, or returns a value. -/
theorem decode_int_cases (m : Mem) (data : List Nat) (len off : Nat) :
    (∃ f, f ≠ Failure.depth ∧ decode_int m data len off = (.fail f, off)) ∨
    (∃ v c, decode_int m data len off = (.value v, c)) := by
  unfold decode_int
  generalize find data len (add64 off 1) 101 = r
  cases r with
  | none => exact Or.inl ⟨_, by simp, rfl⟩
  | some pos =>
    show (∃ f, f ≠ Failure.depth ∧ (if pos = SIZE_MAX then _ else _) = _) ∨
      (∃ v c, (if pos = SIZE_MAX then _ else _) = _)
    by_cases c0 : pos = SIZE_MAX
    · rw [if_pos c0]
      exact Or.inl ⟨_, by simp, rfl⟩
    · rw [if_neg c0]
      generalize sub64 (sub64 pos off) 1 = slen
      show (∃ f, f ≠ Failure.depth ∧ (if slen = 0 ∨ slen ≥ 21 then _ else _) = _) ∨
        (∃ v c, (if slen = 0 ∨ slen ≥ 21 then _ else _) = _)
      by_cases c1 : slen = 0 ∨ slen ≥ 21
      · rw [if_pos c1]
        exact Or.inl ⟨_, by simp, rfl⟩
      · rw [if_neg c1]
        by_cases c2 : ¬ slen < 21
        · rw [if_pos c2]
          exact Or.inl ⟨_, by simp, rfl⟩
        · rw [if_neg c2]
          generalize memcpy data (off + 1) slen = mc
          cases mc with
          | none => exact Or.inl ⟨_, by simp, rfl⟩
          | some span =>
            show (∃ f, f ≠ Failure.depth ∧
                (if (strtoll (span ++ [0])).erange = true ∨
                  (span ++ [0])[(strtoll (span ++ [0])).endptr]? ≠ some 0 then _ else _) = _) ∨
              (∃ v c, (if (strtoll (span ++ [0])).erange = true ∨
                  (span ++ [0])[(strtoll (span ++ [0])).endptr]? ≠ some 0 then _ else _) = _)
            by_cases c3 : (strtoll (span ++ [0])).erange = true ∨
                (span ++ [0])[(strtoll (span ++ [0])).endptr]? ≠ some 0
            · rw [if_pos c3]
              exact Or.inl ⟨_, by simp, rfl⟩
            · rw [if_neg c3]
              by_cases c4 : ¬ m.calloc_ok = true
              · rw [if_pos c4]
                exact Or.inl ⟨_, by simp, rfl⟩
              · rw [if_neg c4]
                exact Or.inr ⟨_, _, rfl⟩

/-- The reader `decode_str` either fails, with a failure other than the depth
failure and with `*off` unchanged, or returns a value. -/
theorem decode_str_cases (m : Mem) (data : List Nat) (len off : Nat) :
    (∃ f, f ≠ Failure.depth ∧ decode_str m data len off = (.fail f, off)) ∨
    (∃ v c, decode_str m data len off = (.value v, c)) := by
  unfold decode_str
  generalize find data len (add64 off 1) 58 = r
  cases r with
  | none => exact Or.inl ⟨_, by simp, rfl⟩
  | some pos =>
    show (∃ f, f ≠ Failure.depth ∧ (if pos = SIZE_MAX then _ else _) = _) ∨
      (∃ v c, (if pos = SIZE_MAX then _ else _) = _)
    by_cases c0 : pos = SIZE_MAX
    · rw [if_pos c0]
      exact Or.inl ⟨_, by simp, rfl⟩
    · rw [if_neg c0]
      generalize sub64 pos off = slen
      show (∃ f, f ≠ Failure.depth ∧ (if slen = 0 ∨ slen ≥ 21 then _ else _) = _) ∨
        (∃ v c, (if slen = 0 ∨ slen ≥ 21 then _ else _) = _)
      by_cases c1 : slen = 0 ∨ slen ≥ 21
      · rw [if_pos c1]
        exact Or.inl ⟨_, by simp, rfl⟩
      · rw [if_neg c1]
        by_cases c2 : ¬ slen < 21
        · rw [if_pos c2]
          exact Or.inl ⟨_, by simp, rfl⟩
        · rw [if_neg c2]
          generalize memcpy data off slen = mc
          cases mc with
          | none => exact Or.inl ⟨_, by simp, rfl⟩
          | some hdr =>
            generalize hn : read_size_t (hdr ++ [0]) = n
            show (∃ f, f ≠ Failure.depth ∧
                (if read_size_t (hdr ++ [0]) = SIZE_MAX then _ else _) = _) ∨
              (∃ v c, (if read_size_t (hdr ++ [0]) = SIZE_MAX then _ else _) = _)
            rw [hn]
            by_cases c3 : n = SIZE_MAX
            · rw [if_pos c3]
              exact Or.inl ⟨_, by simp, rfl⟩
            · rw [if_neg c3]
              generalize add64 (add64 pos 1) n = newoff
              show (∃ f, f ≠ Failure.depth ∧ (if newoff > len then _ else _) = _) ∨
                (∃ v c, (if newoff > len then _ else _) = _)
              by_cases c4 : newoff > len
              · rw [if_pos c4]
                exact Or.inl ⟨_, by simp, rfl⟩
              · rw [if_neg c4]
                by_cases c5 : ¬ m.calloc_ok = true
                · rw [if_pos c5]
                  exact Or.inl ⟨_, by simp, rfl⟩
                · rw [if_neg c5]
                  by_cases c6 : ¬ m.malloc_ok n = true
                  · rw [if_pos c6]
                    exact Or.inl ⟨_, by simp, rfl⟩
                  · rw [if_neg c6]
                    generalize memcpy data (pos + 1) n = mp
                    cases mp with
                    | none => exact Or.inl ⟨_, by simp, rfl⟩
                    | some s => exact Or.inr ⟨_, _, rfl⟩

/-- The dispatcher `decode` either fails with `*off` unchanged, and with the
depth failure only when `l + 1 > 256`, or returns a value. -/
theorem decode_cases (m : Mem) (data : List Nat) (len off : Nat) (l : Int) :
    (∃ f, (f = Failure.depth → l + 1 > 256) ∧ decode m data len off l = (.fail f, off)) ∨
    (∃ v c, decode m data len off l = (.value v, c)) := by
  unfold decode
  show (∃ f, (f = Failure.depth → l + 1 > 256) ∧ (if l + 1 > 256 then _ else _) = _) ∨
    (∃ v c, (if l + 1 > 256 then _ else _) = _)
  by_cases c0 : l + 1 > 256
  · rw [if_pos c0]
    exact Or.inl ⟨_, fun _ => c0, rfl⟩
  · rw [if_neg c0]
    by_cases c1 : off = len
    · rw [if_pos c1]
      exact Or.inl ⟨_, by simp, rfl⟩
    · rw [if_neg c1]
      by_cases c2 : ¬ off < len
      · rw [if_pos c2]
        exact Or.inl ⟨_, by simp, rfl⟩
      · rw [if_neg c2]
        generalize data[off]? = r
        cases r with
        | none => exact Or.inl ⟨_, by simp, rfl⟩
        | some b =>
          show (∃ f, (f = Failure.depth → l + 1 > 256) ∧
              (if 48 ≤ b ∧ b ≤ 57 then _ else _) = _) ∨
            (∃ v c, (if 48 ≤ b ∧ b ≤ 57 then _ else _) = _)
          by_cases c3 : 48 ≤ b ∧ b ≤ 57
          · rw [if_pos c3]
            rcases decode_str_cases m data len off with ⟨f, hf, h⟩ | h
            · exact Or.inl ⟨f, fun e => absurd e hf, h⟩
            · exact Or.inr h
          · rw [if_neg c3]
            by_cases c4 : b = 105
            · rw [if_pos c4]
              rcases decode_int_cases m data len off with ⟨f, hf, h⟩ | h
              · exact Or.inl ⟨f, fun e => absurd e hf, h⟩
              · exact Or.inr h
            · rw [if_neg c4]
              exact Or.inl ⟨_, by simp, rfl⟩

/-- The dispatcher entered at depth 0 does not fail with the depth failure. -/
theorem decode_zero_not_depth (m : Mem) (data : List Nat) (len off : Nat) :
    (decode m data len off 0).1 ≠ .fail .depth := by
  rcases decode_cases m data len off 0 with ⟨f, hf, h⟩ | ⟨v, c, h⟩
  · rw [h]
    intro e
    simp only [Outcome.fail.injEq] at e
    exact absurd (hf e) (by decide)
  · rw [h]
    simp

/-- C18: depth guard.  For every buffer, length, offset and depth counter `l`
with `l + 1 > 256` (`l + 1` within `int`), `decode` fails with the depth
failure, of kind depth-exceeded, whatever the buffer holds (no byte is looked
at) and leaves the offset unchanged; `ben_decode2` and `ben_decode`, which
enter at depth 0, never fail with the depth failure. -/
theorem depth_guard (m : Mem) (data : List Nat) (len off : Nat) (l : Int)
    (hl : l + 1 > 256) (_hint : l + 1 ≤ 2147483647) :
    decode m data len off l = (.fail .depth, off) ∧
    decode m data len off l = decode m [] len off l ∧
    Failure.depth.kind = some .depth_exceeded ∧
    (ben_decode2 m data len off).1 ≠ .fail .depth ∧
    ben_decode m data len ≠ .fail .depth := by
  refine ⟨?_, ?_, rfl, decode_zero_not_depth m data len off,
    decode_zero_not_depth m data len 0⟩
  · unfold decode
    simp only [hl, if_true]
  · unfold decode
    simp only [hl, if_true]

/-- Witness of C18 at `i0e` with depth counter 256. -/
theorem depth_guard_witness :
    decode Mem.ok [105, 48, 101] 3 0 256 = (.fail .depth, 0) ∧
    decode Mem.ok [105, 48, 101] 3 0 256 = decode Mem.ok [] 3 0 256 ∧
    Failure.depth.kind = some .depth_exceeded ∧
    (ben_decode2 Mem.ok [105, 48, 101] 3 0).1 ≠ .fail .depth ∧
    ben_decode Mem.ok [105, 48, 101] 3 ≠ .fail .depth :=
  depth_guard Mem.ok [105, 48, 101] 3 0 256 (by decide) (by decide)

/-- C19: failure atomicity of the cursor.  For every buffer, length and initial
offset, when `ben_decode2` fails, for whatever reason, the offset it hands back
is the initial offset. -/
theorem failure_keeps_offset (m : Mem) (data : List Nat) (len off : Nat) (f : Failure)
    (h : (ben_decode2 m data len off).1 = .fail f) :
    (ben_decode2 m data len off).2 = off := by
  unfold ben_decode2 at h ⊢
  rcases decode_cases m data len off 0 with ⟨g, _, hg⟩ | ⟨v, c, hv⟩
  · rw [hg]
  · rw [hv] at h
    simp at h

/-- Witness of C19 at `5:abc`, which fails with the declared length out of
bounds. -/
theorem failure_keeps_offset_witness :
    (ben_decode2 Mem.ok [53, 58, 97, 98, 99] 5 0).1 = .fail (.invalid .too_long_string 0) ∧
    (ben_decode2 Mem.ok [53, 58, 97, 98, 99] 5 0).2 = 0 :=
  ⟨by decide,
    failure_keeps_offset Mem.ok [53, 58, 97, 98, 99] 5 0 (.invalid .too_long_string 0)
      (by decide)⟩

/-! ## The length header -/

/-- C12 (the code departs from the claim): a NUL byte inside the length header
is tolerated, and so is anything after it.  The input `3`, NUL, `:abc` decodes
to the byte string `abc` of length 3, and so does `3`, NUL, `-x:abc`, whose
header holds a sign and a letter; the header is not all digits. -/
theorem header_with_nul_accepted :
    ben_decode2 Mem.ok [51, 0, 58, 97, 98, 99] 6 0 = (.value (.str [97, 98, 99] 3), 6) ∧
    ben_decode2 Mem.ok [51, 0, 45, 120, 58, 97, 98, 99] 8 0
      = (.value (.str [97, 98, 99] 3), 8) ∧
    isdigit 0 = false := by
  decide


/-! ## Success, characterised at a located terminator -/

/-- With the first `'e'` after `off` at `p`, `decode_int` returns a value exactly
when the span has 1 to 20 bytes, `strtoll` reads it without a range error up
to a NUL, and `calloc` grants the node. -/
theorem decode_int_at_value (m : Mem) (data : List Nat) (off p : Nat)
    (hlen : data.length < 2 ^ 64) (h1 : off < p) (h2 : p < data.length)
    (h3 : data[p]? = some 101)
    (h4 : ∀ j, off + 1 ≤ j → j < p → data[j]? ≠ some 101) (v : Value) (c : Nat) :
    decode_int m data data.length off = (.value v, c) ↔
      (1 ≤ p - off - 1 ∧ p - off - 1 < 21 ∧
        (strtoll ((data.drop (off + 1)).take (p - off - 1) ++ [0])).erange = false ∧
        ((data.drop (off + 1)).take (p - off - 1) ++ [0])[(strtoll
          ((data.drop (off + 1)).take (p - off - 1) ++ [0])).endptr]? = some 0 ∧
        m.calloc_ok = true ∧
        v = .int (strtoll ((data.drop (off + 1)).take (p - off - 1) ++ [0])).ll ∧
        c = p) := by
  rw [decode_int_at m data off p hlen h1 h2 h3 h4]
  generalize (data.drop (off + 1)).take (p - off - 1) = span
  by_cases c1 : p - off - 1 = 0 ∨ p - off - 1 ≥ 21
  · rw [if_pos c1]
    constructor
    · intro h; simp at h
    · rintro ⟨a, b, _⟩; omega
  · rw [if_neg c1]
    by_cases c2 : (strtoll (span ++ [0])).erange = true ∨
        (span ++ [0])[(strtoll (span ++ [0])).endptr]? ≠ some 0
    · rw [if_pos c2]
      constructor
      · intro h; simp at h
      · rintro ⟨_, _, e1, e2, _⟩
        rcases c2 with c2 | c2
        · rw [e1] at c2; simp at c2
        · exact absurd e2 c2
    · rw [if_neg c2]
      by_cases c3 : ¬ m.calloc_ok = true
      · rw [if_pos c3]
        constructor
        · intro h; simp at h
        · rintro ⟨_, _, _, _, e, _⟩
          exact absurd e c3
      · rw [if_neg c3]
        constructor
        · intro h
          simp only [Prod.mk.injEq, Outcome.value.injEq] at h
          have e1 : (strtoll (span ++ [0])).erange = false := by
            cases hb : (strtoll (span ++ [0])).erange
            · rfl
            · exact absurd (Or.inl hb) c2
          have e2 : (span ++ [0])[(strtoll (span ++ [0])).endptr]? = some 0 := by
            by_contra hne
            exact c2 (Or.inr hne)
          exact ⟨by omega, by omega, e1, e2, by simpa using c3, h.1.symm, h.2.symm⟩
        · rintro ⟨_, _, _, _, _, e6, e7⟩
          rw [e6, e7]

/-- With the first `':'` after `off` at `p`, on a buffer of fewer than `2^63`
bytes, `decode_str` returns a value exactly when the header has fewer than 21
bytes, `read_size_t` accepts it, the payload fits and the allocator grants the
node and the payload. -/
theorem decode_str_at_value (m : Mem) (data : List Nat) (off p : Nat)
    (hlen : data.length < 2 ^ 63) (h1 : off < p) (h2 : p < data.length)
    (h3 : data[p]? = some 58)
    (h4 : ∀ j, off + 1 ≤ j → j < p → data[j]? ≠ some 58) (v : Value) (c : Nat) :
    decode_str m data data.length off = (.value v, c) ↔
      (p - off < 21 ∧
        read_size_t ((data.drop off).take (p - off) ++ [0]) ≠ SIZE_MAX ∧
        p + 1 + read_size_t ((data.drop off).take (p - off) ++ [0]) ≤ data.length ∧
        m.calloc_ok = true ∧
        m.malloc_ok (read_size_t ((data.drop off).take (p - off) ++ [0])) = true ∧
        v = .str ((data.drop (p + 1)).take
              (read_size_t ((data.drop off).take (p - off) ++ [0])))
            (read_size_t ((data.drop off).take (p - off) ++ [0])) ∧
        c = p + 1 + read_size_t ((data.drop off).take (p - off) ++ [0])) := by
  rw [decode_str_at m data off p (by omega) h1 h2 h3 h4]
  generalize hn : read_size_t ((data.drop off).take (p - off) ++ [0]) = n
  by_cases c1 : p - off ≥ 21
  · rw [if_pos c1]
    constructor
    · intro h; simp at h
    · rintro ⟨a, _⟩; omega
  · rw [if_neg c1]
    by_cases c2 : n = SIZE_MAX
    · rw [if_pos c2]
      constructor
      · intro h; simp at h
      · rintro ⟨_, e, _⟩; exact absurd c2 e
    · rw [if_neg c2]
      have hnlt : n < 2 ^ 63 := by
        rw [← hn] at c2 ⊢
        exact read_size_t_lt _ c2
      have hadd : add64 (p + 1) n = p + 1 + n := add64_eq (by omega)
      rw [hadd]
      by_cases c3 : p + 1 + n > data.length
      · rw [if_pos c3]
        constructor
        · intro h; simp at h
        · rintro ⟨_, _, e, _⟩; omega
      · rw [if_neg c3]
        by_cases c4 : ¬ m.calloc_ok = true
        · rw [if_pos c4]
          constructor
          · intro h; simp at h
          · rintro ⟨_, _, _, e, _⟩; exact absurd e c4
        · rw [if_neg c4]
          by_cases c5 : ¬ m.malloc_ok n = true
          · rw [if_pos c5]
            constructor
            · intro h; simp at h
            · rintro ⟨_, _, _, _, e, _⟩; exact absurd e c5
          · rw [if_neg c5]
            have hm : memcpy data (p + 1) n = some ((data.drop (p + 1)).take n) := by
              unfold memcpy
              rw [if_pos (by omega)]
            rw [hm]
            constructor
            · intro h
              simp only [Prod.mk.injEq, Outcome.value.injEq] at h
              exact ⟨by omega, c2, by omega, by simpa using c4, by simpa using c5,
                h.1.symm, h.2.symm⟩
            · rintro ⟨_, _, _, _, _, e6, e7⟩
              rw [e6, e7]

/-- A successful `ben_decode2` started inside the buffer. -/
theorem ben_decode2_value_off (m : Mem) (data : List Nat) (off c : Nat) (v : Value)
    (h : ben_decode2 m data data.length off = (.value v, c)) : off < data.length := by
  by_contra hge
  unfold ben_decode2 decode at h
  have h1 : ¬ ((0 : Int) + 1 > 256) := by decide
  simp only [h1, if_false] at h
  by_cases he : off = data.length
  · simp [he] at h
  · simp [he, hge] at h


/-! ## The result depends on the window behind the offset only -/

theorem window_bound (d1 d2 : List Nat) (o1 o2 : Nat)
    (hw : ∀ k, o1 + k < d1.length → d2[o2 + k]? = d1[o1 + k]?)
    (k : Nat) (hk : o1 + k < d1.length) : o2 + k < d2.length := by
  have h := hw k hk
  rw [List.getElem?_eq_getElem hk] at h
  by_contra hge
  rw [List.getElem?_eq_none (by omega)] at h
  simp at h

theorem window_take_drop (d1 d2 : List Nat) (o1 o2 : Nat)
    (hw : ∀ k, o1 + k < d1.length → d2[o2 + k]? = d1[o1 + k]?)
    (a n : Nat) (h : o1 + a + n ≤ d1.length) :
    (d2.drop (o2 + a)).take n = (d1.drop (o1 + a)).take n := by
  apply List.ext_getElem?
  intro i
  rw [List.getElem?_take, List.getElem?_take]
  split
  · rw [List.getElem?_drop, List.getElem?_drop, Nat.add_assoc, Nat.add_assoc,
      hw _ (by omega)]
  · rfl

/-- When the bytes of `d2` from `o2` on repeat the bytes of `d1` from `o1` to
its end (and `d2` may go on), a successful call on `d1` from `o1` is a
successful call on `d2` from `o2`, with the same value and the same advance. -/
theorem ben_decode2_window (m : Mem) (d1 d2 : List Nat) (o1 o2 : Nat)
    (hl1 : d1.length < 2 ^ 63) (hl2 : d2.length < 2 ^ 63)
    (hw : ∀ k, o1 + k < d1.length → d2[o2 + k]? = d1[o1 + k]?)
    (v : Value) (c : Nat)
    (h : ben_decode2 m d1 d1.length o1 = (.value v, c)) :
    ∃ k, 0 < k ∧ c = o1 + k ∧ ben_decode2 m d2 d2.length o2 = (.value v, o2 + k) := by
  have hoff := ben_decode2_value_off m d1 o1 c v h
  obtain ⟨_, hcase⟩ := ben_decode2_value m d1 o1 c v (le_of_lt hoff) h
  have hoff2 : o2 < d2.length := window_bound d1 d2 o1 o2 hw 0 hoff
  have hb0 : d2[o2]? = d1[o1]? := hw 0 hoff
  rcases hcase with ⟨hi, hint⟩ | ⟨b, hb, hbd, hstr⟩
  · obtain ⟨p, g1, g2, g3, g4, _⟩ := decode_int_value m d1 o1 c v (by omega) hoff hint
    obtain ⟨e1, e2, e3, e4, e5, e6, e7⟩ :=
      (decode_int_at_value m d1 o1 p (by omega) g1 g2 g3 g4 v c).mp hint
    obtain ⟨k, rfl⟩ : ∃ k, p = o1 + k := ⟨p - o1, by omega⟩
    have q2 : o2 + k < d2.length := window_bound d1 d2 o1 o2 hw k g2
    have q3 : d2[o2 + k]? = some 101 := by rw [hw k g2]; exact g3
    have q4 : ∀ j, o2 + 1 ≤ j → j < o2 + k → d2[j]? ≠ some 101 := by
      intro j j1 j2
      obtain ⟨i, rfl⟩ : ∃ i, j = o2 + i := ⟨j - o2, by omega⟩
      rw [hw i (by omega)]
      exact g4 (o1 + i) (by omega) (by omega)
    have a1 : o2 + k - o2 - 1 = k - 1 := by omega
    have a2 : o1 + k - o1 - 1 = k - 1 := by omega
    have hsp : (d2.drop (o2 + 1)).take (k - 1) = (d1.drop (o1 + 1)).take (k - 1) :=
      window_take_drop d1 d2 o1 o2 hw 1 (k - 1) (by omega)
    rw [a2] at e1 e2 e3 e4 e6
    refine ⟨k, by omega, e7, ?_⟩
    unfold ben_decode2
    rw [decode_i m d2 _ o2 hoff2 (by rw [hb0]; exact hi),
      decode_int_at_value m d2 o2 (o2 + k) (by omega) (by omega) q2 q3 q4 v (o2 + k),
      a1, hsp]
    exact ⟨e1, e2, e3, e4, e5, e6, rfl⟩
  · obtain ⟨p, n, g1, g2, g3, g4, _⟩ := decode_str_value m d1 o1 c v hl1 hoff hstr
    obtain ⟨e1, e2, e3, e4, e5, e6, e7⟩ :=
      (decode_str_at_value m d1 o1 p hl1 g1 g2 g3 g4 v c).mp hstr
    obtain ⟨k, rfl⟩ : ∃ k, p = o1 + k := ⟨p - o1, by omega⟩
    have q2 : o2 + k < d2.length := window_bound d1 d2 o1 o2 hw k g2
    have q3 : d2[o2 + k]? = some 58 := by rw [hw k g2]; exact g3
    have q4 : ∀ j, o2 + 1 ≤ j → j < o2 + k → d2[j]? ≠ some 58 := by
      intro j j1 j2
      obtain ⟨i, rfl⟩ : ∃ i, j = o2 + i := ⟨j - o2, by omega⟩
      rw [hw i (by omega)]
      exact g4 (o1 + i) (by omega) (by omega)
    have a1 : o2 + k - o2 = k := by omega
    have a2 : o1 + k - o1 = k := by omega
    have hhd : (d2.drop o2).take k = (d1.drop o1).take k :=
      window_take_drop d1 d2 o1 o2 hw 0 k (by omega)
    rw [a2] at e1 e2 e3 e5 e6 e7
    generalize hn : read_size_t ((d1.drop o1).take k ++ [0]) = n1 at e2 e3 e5 e6 e7
    have hpay : (d2.drop (o2 + k + 1)).take n1 = (d1.drop (o1 + k + 1)).take n1 :=
      window_take_drop d1 d2 o1 o2 hw (k + 1) n1 (by omega)
    have hfit : o2 + k + 1 + n1 ≤ d2.length := by
      rcases Nat.eq_zero_or_pos n1 with h0 | h0
      · omega
      · have := window_bound d1 d2 o1 o2 hw (k + n1) (by omega)
        omega
    refine ⟨k + 1 + n1, by omega, by omega, ?_⟩
    unfold ben_decode2
    rw [decode_digit m d2 _ o2 b hoff2 (by rw [hb0]; exact hb) hbd,
      decode_str_at_value m d2 o2 (o2 + k) hl2 (by omega) q2 q3 q4 v (o2 + (k + 1 + n1)),
      a1, hhd, hn, hpay]
    exact ⟨e1, e2, hfit, e4, e5, e6, by omega⟩

/-! ## Trailing bytes and translation -/

/-- C17: trailing bytes are accepted and ignored.  For every buffer `d`, offset
`o` and byte sequence `t` (with `d ++ t` of fewer than `2^63` bytes), when
`ben_decode2` on `d` from `o` succeeds with value `v` and returned offset `c`,
`ben_decode2` on `d ++ t` from `o` succeeds with the same value and the same
returned offset. -/
theorem trailing_bytes_ignored (m : Mem) (d t : List Nat) (o c : Nat) (v : Value)
    (hlen : (d ++ t).length < 2 ^ 63)
    (h : ben_decode2 m d d.length o = (.value v, c)) :
    ben_decode2 m (d ++ t) (d ++ t).length o = (.value v, c) := by
  have hl1 : d.length < 2 ^ 63 := by
    rw [List.length_append] at hlen
    omega
  obtain ⟨k, _, hc, hk⟩ := ben_decode2_window m d (d ++ t) o o hl1 hlen
    (fun k hk => List.getElem?_append_left hk) v c h
  rw [hc]
  exact hk

/-- Witness of C17 at `3:abc` followed by `xyz`. -/
theorem trailing_bytes_ignored_witness :
    ben_decode2 Mem.ok [51, 58, 97, 98, 99] [51, 58, 97, 98, 99].length 0
      = (.value (.str [97, 98, 99] 3), 5) ∧
    ben_decode2 Mem.ok ([51, 58, 97, 98, 99] ++ [120, 121, 122])
        ([51, 58, 97, 98, 99] ++ [120, 121, 122]).length 0
      = (.value (.str [97, 98, 99] 3), 5) :=
  ⟨by decide,
    trailing_bytes_ignored Mem.ok [51, 58, 97, 98, 99] [120, 121, 122] 0 5
      (.str [97, 98, 99] 3) (by decide) (by decide)⟩

/-- C20: offset translation invariance.  For every buffer `d` of fewer than
`2^63` bytes and offset `o <= |d|`, `ben_decode2` on `d` from `o` succeeds with
value `v` and returned offset `c` if and only if `ben_decode2` on the suffix
`d[o..]` from offset 0 succeeds with value `v` and returned offset `c - o`. -/
theorem offset_translation (m : Mem) (d : List Nat) (o c : Nat) (v : Value)
    (hlen : d.length < 2 ^ 63) (ho : o ≤ d.length) :
    ben_decode2 m d d.length o = (.value v, c) ↔
      ben_decode2 m (d.drop o) (d.drop o).length 0 = (.value v, c - o) := by
  have hl2 : (d.drop o).length < 2 ^ 63 := by
    rw [List.length_drop]
    omega
  constructor
  · intro h
    obtain ⟨k, _, hc, hk⟩ := ben_decode2_window m d (d.drop o) o 0 hlen hl2
      (fun k _ => by rw [List.getElem?_drop, Nat.zero_add]) v c h
    have hck : c - o = 0 + k := by omega
    rw [hck]
    exact hk
  · intro h
    obtain ⟨k, hpos, hc, hk⟩ := ben_decode2_window m (d.drop o) d 0 o hl2 hlen
      (fun k _ => by rw [List.getElem?_drop, Nat.zero_add]) v (c - o) h
    have hck : c = o + k := by omega
    rw [hck]
    exact hk

/-- Witness of C20 at `x3:abc` from offset 1. -/
theorem offset_translation_witness :
    (ben_decode2 Mem.ok [120, 51, 58, 97, 98, 99] [120, 51, 58, 97, 98, 99].length 1
        = (.value (.str [97, 98, 99] 3), 6) ↔
      ben_decode2 Mem.ok ([120, 51, 58, 97, 98, 99].drop 1)
          ([120, 51, 58, 97, 98, 99].drop 1).length 0
        = (.value (.str [97, 98, 99] 3), 6 - 1)) ∧
    ben_decode2 Mem.ok [120, 51, 58, 97, 98, 99] 6 1 = (.value (.str [97, 98, 99] 3), 6) :=
  ⟨offset_translation Mem.ok [120, 51, 58, 97, 98, 99] 1 6 (.str [97, 98, 99] 3)
    (by decide) (by decide), by decide⟩


/-! ## White space in the digit span -/

theorem isspace_facts {c : Nat} (h : isspace c = true) :
    isdigit c = false ∧ c ≠ 0 ∧ c ≠ 101 ∧ c ≠ 45 ∧ c ≠ 43 := by
  simp only [isdigit, isspace, Bool.and_eq_true, decide_eq_true_eq, Bool.or_eq_true,
    beq_iff_eq, Bool.and_eq_false_iff, decide_eq_false_iff_not] at *
  omega

/-- Leading white space is skipped by `strtoll`: the result is the one for the
rest of the string, with `endptr` moved along, unless nothing is converted. -/
theorem strtoll_skip_ws (ws s : List Nat) (hws : ∀ c ∈ ws, isspace c = true)
    (hs : ∀ c, s.head? = some c → isspace c = false) :
    strtoll (ws ++ s) =
      if (strtoll s).endptr = 0 then ⟨0, 0, false⟩
      else ⟨(strtoll s).ll, ws.length + (strtoll s).endptr, (strtoll s).erange⟩ := by
  have h2 : s.takeWhile isspace = [] := by
    cases s with
    | nil => rfl
    | cons a as =>
      have := hs a rfl
      simp [List.takeWhile_cons, this]
  have h1 : (ws ++ s).takeWhile isspace = ws := by
    rw [List.takeWhile_append_of_pos hws, h2, List.append_nil]
  unfold strtoll
  simp only [h1, h2, List.drop_left, List.length_nil, List.drop_zero, Nat.zero_add]
  generalize hds : List.takeWhile isdigit
      (List.drop (if (s.head? == some 45 || s.head? == some 43) = true then 1 else 0) s) = ds
  cases ds with
  | nil => simp
  | cons a as =>
    simp only [List.isEmpty_cons, Bool.false_eq_true, if_false, List.length_cons]
    split_ifs <;> (try dsimp only at *) <;> first
      | omega
      | simp [Nat.add_assoc]

/-- Without a digit after the minus sign, `strtoll` converts nothing. -/
theorem strtoll_minus_no_digit (rest : List Nat)
    (hr : ∀ c, rest.head? = some c → isdigit c = false) :
    strtoll (45 :: rest) = ⟨0, 0, false⟩ := by
  have htw : rest.takeWhile isdigit = [] := by
    cases rest with
    | nil => rfl
    | cons r rs =>
      have := hr r rfl
      simp [List.takeWhile_cons, this]
  unfold strtoll
  have hsp : isspace 45 = false := by decide
  simp only [List.takeWhile_cons, hsp, List.length_nil, List.drop_zero, List.head?_cons,
    Bool.false_eq_true, if_false, beq_self_eq_true, Bool.true_or, if_true, List.drop_succ_cons,
    htw, List.isEmpty_nil]

theorem getElem?_append_length (l r : List Nat) (a : Nat) :
    (l ++ a :: r)[l.length]? = some a := by
  rw [List.getElem?_append_right (le_refl _)]
  simp


theorem signed_head_not_space (neg : Bool) (ds rest : List Nat)
    (hd : ∀ c ∈ ds, isdigit c = true) (hne : (if neg then 45 :: ds else ds) ≠ []) :
    ∀ c, ((if neg then 45 :: ds else ds) ++ rest).head? = some c → isspace c = false := by
  intro c hc
  cases neg with
  | true =>
    simp only [if_true, List.cons_append, List.head?_cons, Option.some.injEq] at hc
    subst hc; rfl
  | false =>
    simp only [Bool.false_eq_true, if_false] at hc hne
    cases ds with
    | nil => exact absurd rfl hne
    | cons a as =>
      simp only [List.cons_append, List.head?_cons, Option.some.injEq] at hc
      subst hc
      exact isdigit_not_isspace (hd _ (List.mem_cons_self _ _))

theorem signed_ne_e (neg : Bool) (ds : List Nat) (hd : ∀ c ∈ ds, isdigit c = true) :
    ∀ c ∈ (if neg then 45 :: ds else ds), c ≠ 101 := by
  intro c hc0
  cases neg with
  | true =>
    simp only [if_true, List.mem_cons] at hc0
    rcases hc0 with h | h
    · omega
    · exact isdigit_ne_e (hd c h)
  | false =>
    simp only [Bool.false_eq_true, if_false] at hc0
    exact isdigit_ne_e (hd c hc0)

/-- On an optional minus sign and digits followed by a byte that is not a digit,
`strtoll` stops at the start (nothing converted) or right after the digits. -/
theorem strtoll_signed_stop (neg : Bool) (ds rest : List Nat)
    (hd : ∀ c ∈ ds, isdigit c = true) (hnum : (if neg then 45 :: ds else ds) ≠ [])
    (hr : ∀ c, rest.head? = some c → isdigit c = false) :
    (strtoll ((if neg then 45 :: ds else ds) ++ rest)).endptr = 0 ∨
    (strtoll ((if neg then 45 :: ds else ds) ++ rest)).endptr
      = (if neg then 45 :: ds else ds).length := by
  by_cases hds : ds = []
  · subst hds
    cases neg with
    | false => exact absurd rfl hnum
    | true =>
      left
      simp only [if_true, List.cons_append, List.nil_append]
      rw [strtoll_minus_no_digit rest hr]
  · right
    cases neg with
    | true =>
      simp only [if_true, List.cons_append, List.length_cons]
      rw [strtoll_minus_digits ds rest hds hd hr]
      split_ifs <;> simp [Nat.add_comm]
    | false =>
      simp only [Bool.false_eq_true, if_false]
      rw [strtoll_digits ds rest hds hd hr]
      split_ifs <;> rfl

/-- A white-space byte right after an optional minus sign and digits, which may
follow leading white space, is where `strtoll` stops, or nothing is converted:
the byte at `endptr` is not NUL. -/
theorem strtoll_ws_after_numeral (neg : Bool) (ws ds tail : List Nat) (w : Nat)
    (hws : ∀ c ∈ ws, isspace c = true) (hd : ∀ c ∈ ds, isdigit c = true)
    (hnum : (if neg then 45 :: ds else ds) ≠ []) (hw : isspace w = true) :
    (ws ++ ((if neg then 45 :: ds else ds) ++ ((w :: tail) ++ [0])))[(strtoll
        (ws ++ ((if neg then 45 :: ds else ds) ++ ((w :: tail) ++ [0])))).endptr]?
      ≠ some 0 := by
  have hwf := isspace_facts hw
  have hhead := signed_head_not_space neg ds ((w :: tail) ++ [0]) hd hnum
  have hr : ∀ c, ((w :: tail) ++ [0]).head? = some c → isdigit c = false := by
    intro c hc0
    simp only [List.cons_append, List.head?_cons, Option.some.injEq] at hc0
    subst hc0
    exact hwf.1
  have hstop := strtoll_signed_stop neg ds ((w :: tail) ++ [0]) hd hnum hr
  have hpos : 0 < (if neg then 45 :: ds else ds).length := List.length_pos.mpr hnum
  have hidx : (ws ++ ((if neg then 45 :: ds else ds) ++ ((w :: tail) ++ [0])))[ws.length +
      (if neg then 45 :: ds else ds).length]? = some w := by
    rw [← List.append_assoc, ← List.length_append]
    exact getElem?_append_length _ _ w
  have hzero : (ws ++ ((if neg then 45 :: ds else ds) ++ ((w :: tail) ++ [0])))[0]?
      ≠ some 0 := by
    cases ws with
    | nil =>
      cases neg with
      | true => simp
      | false =>
        simp only [Bool.false_eq_true, if_false] at hnum ⊢
        cases ds with
        | nil => exact absurd rfl hnum
        | cons a as =>
          have hda := hd a (List.mem_cons_self _ _)
          simp only [List.nil_append, List.cons_append, List.getElem?_cons_zero, ne_eq,
            Option.some.injEq]
          intro h0
          subst h0
          simp [isdigit] at hda
    | cons a as =>
      have hsa := isspace_facts (hws a (List.mem_cons_self _ _))
      simp only [List.cons_append, List.getElem?_cons_zero, ne_eq, Option.some.injEq]
      exact hsa.2.1
  rw [strtoll_skip_ws ws _ hws hhead]
  generalize strtoll ((if neg then 45 :: ds else ds) ++ ((w :: tail) ++ [0])) = r at hstop ⊢
  by_cases h0 : r.endptr = 0
  · rw [if_pos h0]
    exact hzero
  · rw [if_neg h0]
    have he : r.endptr = (if neg then 45 :: ds else ds).length := by
      rcases hstop with h | h
      · exact absurd h h0
      · exact h
    show (ws ++ ((if neg then 45 :: ds else ds) ++ ((w :: tail) ++ [0])))[ws.length +
      r.endptr]? ≠ some 0
    rw [he, hidx]
    simp only [ne_eq, Option.some.injEq]
    exact hwf.2.1

/-- C11, counterexample: `i 5e`, whose span begins with a space, does not fail;
it decodes to Integer 5. -/
theorem leading_whitespace_accepted :
    ben_decode2 Mem.ok [105, 32, 53, 101] 4 0 = (.value (.int 5), 3) ∧
    ben_decode Mem.ok [105, 32, 53, 101] 4 = .value (.int 5) ∧
    isspace 32 = true := by
  decide

/-- C11, amended: white space before the numeral is skipped, white space right
after it is rejected.  Let `ws` be white-space bytes and the numeral an optional
`'-'` followed by the digits `ds`.  A span `ws ++ numeral` with at least one
digit, of at most 20 bytes and denoting `v` in `[-2^63, 2^63-1]`, decodes to
Integer `v`.  A span `ws ++ numeral ++ w ++ tail`, where the numeral has a sign or
a digit and `w` is a white-space byte (embedded or trailing white space), fails
with a failure of kind malformed-number and leaves the offset unchanged. -/
theorem whitespace_in_span (m : Mem) (pre post ws ds tail : List Nat) (neg : Bool) (w : Nat)
    (hws : ∀ c ∈ ws, isspace c = true) (hd : ∀ c ∈ ds, isdigit c = true) :
    (ds ≠ [] → (ws ++ (if neg then 45 :: ds else ds)).length ≤ 20 →
      LLONG_MIN ≤ (if neg then -(digitsVal ds : Int) else (digitsVal ds : Int)) →
      (if neg then -(digitsVal ds : Int) else (digitsVal ds : Int)) ≤ LLONG_MAX →
      m.calloc_ok = true →
      (pre ++ 105 :: ((ws ++ (if neg then 45 :: ds else ds)) ++ 101 :: post)).length
        < 2 ^ 64 →
      (ben_decode2 m (pre ++ 105 :: ((ws ++ (if neg then 45 :: ds else ds)) ++ 101 :: post))
        (pre ++ 105 :: ((ws ++ (if neg then 45 :: ds else ds)) ++ 101 :: post)).length
        pre.length).1
        = .value (.int (if neg then -(digitsVal ds : Int) else (digitsVal ds : Int)))) ∧
    ((if neg then 45 :: ds else ds) ≠ [] → isspace w = true → (∀ c ∈ tail, c ≠ 101) →
      (pre ++ 105 :: ((ws ++ ((if neg then 45 :: ds else ds) ++ w :: tail)) ++ 101 :: post)).length
        < 2 ^ 64 →
      ∃ f, ben_decode2 m
        (pre ++ 105 :: ((ws ++ ((if neg then 45 :: ds else ds) ++ w :: tail)) ++ 101 :: post))
        (pre ++ 105 :: ((ws ++ ((if neg then 45 :: ds else ds) ++ w :: tail)) ++ 101 :: post)).length
        pre.length = (.fail f, pre.length) ∧ f.kind = some .malformed_number) := by
  have hwse : ∀ c ∈ ws, c ≠ 101 := fun c hc => (isspace_facts (hws c hc)).2.2.1
  have hnume := signed_ne_e neg ds hd
  constructor
  · intro hne h20 hlo hhi hc hlen
    have hs : ∀ c ∈ ws ++ (if neg then 45 :: ds else ds), c ≠ 101 := by
      intro c hc0
      rcases List.mem_append.mp hc0 with h | h
      · exact hwse c h
      · exact hnume c h
    have hnum : (if neg then 45 :: ds else ds) ≠ [] := by
      cases neg with
      | true => simp
      | false => simpa using hne
    have hpos : 0 < (if neg then 45 :: ds else ds).length := List.length_pos.mpr hnum
    have hstr : strtoll ((ws ++ (if neg then 45 :: ds else ds)) ++ [0]) =
        ⟨if neg then -(digitsVal ds : Int) else (digitsVal ds : Int),
          ws.length + (if neg then 45 :: ds else ds).length, false⟩ := by
      rw [List.append_assoc,
        strtoll_skip_ws ws _ hws (signed_head_not_space neg ds [0] hd hnum),
        strtoll_signed neg ds hne hd hlo hhi]
      simp only
      rw [if_neg (by omega)]
    have hend : ((ws ++ (if neg then 45 :: ds else ds)) ++ [0])[ws.length +
        (if neg then 45 :: ds else ds).length]? = some 0 := by
      rw [← List.length_append]
      exact getElem?_append_length _ [] 0
    rw [ben_decode2_int_token m pre _ post hlen hs, hstr]
    simp only [hend]
    rw [List.length_append] at h20
    rw [if_neg (by rw [List.length_append]; omega)]
    simp [hc]
  · intro hnum hw htail hlen
    have hwf := isspace_facts hw
    have hs : ∀ c ∈ ws ++ ((if neg then 45 :: ds else ds) ++ w :: tail), c ≠ 101 := by
      intro c hc0
      rcases List.mem_append.mp hc0 with h | h
      · exact hwse c h
      · rcases List.mem_append.mp h with h | h
        · exact hnume c h
        · rcases List.mem_cons.mp h with h | h
          · rw [h]; exact hwf.2.2.1
          · exact htail c h
    rw [ben_decode2_int_token m pre _ post hlen hs]
    by_cases hsl : (ws ++ ((if neg then 45 :: ds else ds) ++ w :: tail)).length = 0 ∨
        (ws ++ ((if neg then 45 :: ds else ds) ++ w :: tail)).length ≥ 21
    · rw [if_pos hsl]
      exact ⟨_, rfl, rfl⟩
    · rw [if_neg hsl]
      have hassoc : (ws ++ ((if neg then 45 :: ds else ds) ++ w :: tail)) ++ [0] =
          ws ++ ((if neg then 45 :: ds else ds) ++ ((w :: tail) ++ [0])) := by
        simp
      have hrej : (strtoll ((ws ++ ((if neg then 45 :: ds else ds) ++ w :: tail)) ++ [0])).erange
            = true ∨
          ((ws ++ ((if neg then 45 :: ds else ds) ++ w :: tail)) ++ [0])[(strtoll
            ((ws ++ ((if neg then 45 :: ds else ds) ++ w :: tail)) ++ [0])).endptr]?
            ≠ some 0 := by
        right
        rw [hassoc]
        exact strtoll_ws_after_numeral neg ws ds tail w hws hd hnum hw
      rw [if_pos hrej]
      exact ⟨_, rfl, rfl⟩

/-- Witness of the amended C11 at `i 5e` (accepted) and `i5 e` (rejected). -/
theorem whitespace_in_span_witness :
    (ben_decode2 Mem.ok [105, 32, 53, 101] 4 0).1 = .value (.int 5) ∧
    (∃ f, ben_decode2 Mem.ok [105, 53, 32, 101] 4 0 = (.fail f, 0) ∧
      f.kind = some .malformed_number) :=
  ⟨(whitespace_in_span Mem.ok [] [] [32] [53] [] false 32 (by decide) (by decide)).1
      (by decide) (by decide) (by decide) (by decide) rfl (by decide),
    (whitespace_in_span Mem.ok [] [] [] [53] [] false 32 (by decide) (by decide)).2
      (by decide) (by decide) (by decide) (by decide)⟩


end Bencode
